import Mathlib

/-!
Orbit map: parsing, tree construction and orbit counting.

A shallow embedding of `src/main.js` (functions `convertLineToObject`,
`buildTree`, `countOrbitsToRoot`, `countTotalOrbits`) followed by theorems about
these definitions.

Modelling conventions.

* A JavaScript record `{ parent, name, children }` is a `SpaceObject`.  A field
  that may be `undefined` is an `Option`: `name` is `none` when the line had no
  separator, `children` is `none` when the attribute was never attached.
* JavaScript strings are Lean strings; the separator `")"` is a single
  character.
* Counts are mathematical integers (`Int`); JavaScript numbers represent them
  exactly up to `2 ^ 53`.  `countOrbitsToRootNum` is `countOrbitsToRoot` with
  JavaScript's addition of doubles, and `countOrbitsToRootNum_exact` shows that
  the two agree as long as the magnitudes that are added sum to at most
  `2 ^ 53`.
* `buildTree` is general recursion in the source and need not terminate, so the
  embedding takes a fuel argument bounding the recursion depth and returns
  `none` when the fuel runs out.  "The call terminates with result `t`" is
  `∃ fuel, buildTree fuel data parent = some t`.
* `buildTree` attaches `children` to its input records in place.  `buildTree`
  below computes the value of the returned tree; `buildTreeHeap` passes the
  memory holding the records through the run, and `buildTreeHeap_refines`
  relates the two.
-/

namespace OrbitMap

/-! ## Data model -/

/-- The record built by `convertLineToObject` and extended by `buildTree`:
`parent` and `name` come from the input line, `children` is attached while the
tree is built. -/
inductive SpaceObject where
  | mk (parent : String) (name : Option String) (children : Option (List SpaceObject))

namespace SpaceObject

/-- Field `parent`. -/
def parent : SpaceObject → String
  | mk p _ _ => p

/-- Field `name` (`none` is JavaScript `undefined`). -/
def name : SpaceObject → Option String
  | mk _ n _ => n

/-- Field `children` (`none` when the attribute is absent). -/
def children : SpaceObject → Option (List SpaceObject)
  | mk _ _ c => c

/-- The assignment `item.children = children`. -/
def setChildren : SpaceObject → List SpaceObject → SpaceObject
  | mk p n _, cs => mk p n (some cs)

end SpaceObject

/-- The root identifier, the default value of `buildTree`'s second parameter. -/
def COM : String := "COM"

/-! ## `convertLineToObject` -/

/-- Cuts a character sequence at every occurrence of `sep`.  The result of
JavaScript's `split` is never empty, so it is returned as its first element
together with the list of the remaining elements. -/
def splitChars (sep : Char) : List Char → List Char × List (List Char)
  | [] => ([], [])
  | c :: cs =>
    if c = sep then ([], (splitChars sep cs).1 :: (splitChars sep cs).2)
    else (c :: (splitChars sep cs).1, (splitChars sep cs).2)

/-- The call `line.split(")")`: first element and remaining elements. -/
def split (line : String) : String × List String :=
  (String.mk (splitChars ')' line.data).1, (splitChars ')' line.data).2.map String.mk)

/-- Source lines 40-43: `let [parent, name] = line.split(")")`, then
`return { parent: parent, name: name }`.  The second element is `undefined`
when the array has a single element; elements after the second are dropped. -/
def convertLineToObject (line : String) : SpaceObject :=
  SpaceObject.mk (split line).1 (split line).2.head? none

/-! ## `buildTree` -/

/-- The statement `if (children.length) { item.children = children }` (source
lines 62-64): the record as it stands after the statement. -/
def attachChildren (item : SpaceObject) (children : List SpaceObject) : SpaceObject :=
  if children.length ≠ 0 then item.setChildren children else item

/-- The body of `data.forEach((item) => ...)` in `buildTree` (source lines
57-68), run over the items still to visit, `tree` being the array built so far.
`recurse` is the recursive call `buildTree(data, ·)`; when it does not return,
neither does the loop. -/
def forEachItem (recurse : Option String → Option (List SpaceObject)) (parent : String) :
    List SpaceObject → List SpaceObject → Option (List SpaceObject)
  | [], tree => some tree
  | item :: rest, tree =>
    if item.parent = parent then
      match recurse item.name with
      | none => none
      | some children =>
        forEachItem recurse parent rest (tree ++ [attachChildren item children])
    else
      forEachItem recurse parent rest tree

/-- Source lines 55-70.  The parameter `parent` is `none` when the argument is
omitted or `undefined`, in which case the default `"COM"` applies.  The first
argument bounds the depth of the recursion.

The source attaches `children` to the records of `data` in place.  A record is
selected by `item.parent === parent` only, and `parent` and `name` are never
written, so every visit of a record computes the same list of children
(the same records in the same order); the value of the returned tree read after
the call is therefore the one computed here from the unmodified `data`.
`buildTreeHeap` is the embedding with the records in memory, and
`buildTreeHeap_refines` proves that the two agree. -/
def buildTree : Nat → List SpaceObject → Option String → Option (List SpaceObject)
  | 0, _, _ => none
  | fuel + 1, data, parent =>
    forEachItem (buildTree fuel data) (parent.getD COM) data []

/-! ## Orbit counting -/

mutual
/-- Source lines 80-90.  `if (node.children)` holds for every array, also the
empty one.  The addition is that of mathematical integers; `countOrbitsToRootNum`
is the same function with JavaScript's addition. -/
def countOrbitsToRoot : SpaceObject → Int → Int
  | SpaceObject.mk _ _ none, depth => depth
  | SpaceObject.mk _ _ (some cs), depth => countOrbitsLoop cs depth depth
/-- The loop `for (const child of node.children)` of `countOrbitsToRoot`, with
the running value of `totalSteps`. -/
def countOrbitsLoop : List SpaceObject → Int → Int → Int
  | [], _, totalSteps => totalSteps
  | child :: rest, depth, totalSteps =>
    countOrbitsLoop rest depth (totalSteps + countOrbitsToRoot child (depth + 1))
end

/-- The loop `for (const root of tree)` of `countTotalOrbits`, with the running
value of `totalSteps`; `countOrbitsToRoot(root)` takes the default depth 1. -/
def countTotalLoop : List SpaceObject → Int → Int
  | [], totalSteps => totalSteps
  | root :: rest, totalSteps => countTotalLoop rest (totalSteps + countOrbitsToRoot root 1)

/-- Source lines 100-108. -/
def countTotalOrbits (tree : List SpaceObject) : Int :=
  countTotalLoop tree 0

/-! ## Specification vocabulary -/

mutual
/-- Every node of the subtree rooted at a node, the node included, in preorder,
each paired with its level, the node itself being at level `k` and the level
growing by one per edge. -/
def SpaceObject.subtree : SpaceObject → Nat → List (SpaceObject × Nat)
  | SpaceObject.mk p n none, k => [(SpaceObject.mk p n none, k)]
  | SpaceObject.mk p n (some cs), k => (SpaceObject.mk p n (some cs), k) :: forest cs (k + 1)
/-- Every node of a list of trees with its level, the listed nodes being at
level `k`. -/
def forest : List SpaceObject → Nat → List (SpaceObject × Nat)
  | [], _ => []
  | c :: cs, k => c.subtree k ++ forest cs k
end

/-- The lines of the linear-chain scenario. -/
def chainLines : List String :=
  ["COM)B", "B)C", "C)D", "D)E", "E)F", "F)G", "G)H", "H)I", "I)J", "J)K", "K)L"]

/-- The lines of the branching scenario: the chain followed by `K)YOU` and
`I)SAN`. -/
def branchLines : List String :=
  chainLines ++ ["K)YOU", "I)SAN"]

/-- Three records without a `children` attribute: `COM)A`, `A)B`, `COM)C`. -/
def sampleData : List SpaceObject :=
  [SpaceObject.mk "COM" (some "A") none, SpaceObject.mk "A" (some "B") none,
    SpaceObject.mk "COM" (some "C") none]

/-- The tree that `buildTree` returns on `sampleData`. -/
def sampleTree : List SpaceObject :=
  [SpaceObject.mk "COM" (some "A") (some [SpaceObject.mk "A" (some "B") none]),
    SpaceObject.mk "COM" (some "C") none]

/-- A relationship of the input: `child` directly orbits `parent`. -/
structure Relationship where
  /-- The body that is orbited. -/
  parent : String
  /-- The body in orbit. -/
  child : String
deriving DecidableEq

/-- The record `{ parent, name }` of a relationship, as `convertLineToObject`
builds it: no `children` attribute. -/
def Relationship.toObject (r : Relationship) : SpaceObject :=
  SpaceObject.mk r.parent (some r.child) none

/-- An identifier is reachable from `"COM"` through relationships of `S`. -/
inductive Reachable (S : List Relationship) : String → Prop
  | root : Reachable S COM
  | step (r : Relationship) : r ∈ S → Reachable S r.parent → Reachable S r.child

/-- A well-formed relationship list: each identifier is the child of at most one
relationship, `"COM"` is never a child, and the parent of every relationship is
`"COM"` or reachable from `"COM"`. -/
structure WellFormed (S : List Relationship) : Prop where
  /-- Each identifier is the child of at most one relationship. -/
  uniqueChild : (S.map Relationship.child).Nodup
  /-- The root is never a child. -/
  rootNotChild : COM ∉ S.map Relationship.child
  /-- Every parent is the root or reachable from it. -/
  reachable : ∀ r ∈ S, Reachable S r.parent

/-- The part of well-formedness that does not speak of reachability: each
identifier is the child of at most one relationship and `"COM"` is never a
child. -/
structure SingleParent (S : List Relationship) : Prop where
  /-- Each identifier is the child of at most one relationship. -/
  uniqueChild : (S.map Relationship.child).Nodup
  /-- The root is never a child. -/
  rootNotChild : COM ∉ S.map Relationship.child

/-- The length of the parent chain of an identifier, followed for at most
`fuel` steps: zero for an identifier that is no child, one more than for its
parent otherwise. -/
def numAncestors (S : List Relationship) : Nat → String → Nat
  | 0, _ => 0
  | fuel + 1, x =>
    match S.find? (fun r => r.child = x) with
    | none => 0
    | some r => numAncestors S fuel r.parent + 1

/-- The number of ancestors of an identifier in `S`: the length of its parent
chain.  A chain without repetition has at most `S.length` steps. -/
def ancestorCount (S : List Relationship) (x : String) : Nat :=
  numAncestors S S.length x

/-- The identifier has a parent chain of the given length ending at `"COM"`. -/
inductive Depth (S : List Relationship) : String → Nat → Prop
  | root : Depth S COM 0
  | step (r : Relationship) (n : Nat) : r ∈ S → Depth S r.parent n → Depth S r.child (n + 1)

/-- The second identifier lies strictly below the first: a chain of
relationships of `S` leads from the first down to the second. -/
inductive Descends (S : List Relationship) : String → String → Prop
  | child (r : Relationship) : r ∈ S → Descends S r.parent r.child
  | step (r : Relationship) (y : String) : r ∈ S → Descends S r.child y → Descends S r.parent y

/-- Three relationships forming a well-formed list: `COM)A`, `A)B`, `COM)C`. -/
def sampleRelationships : List Relationship :=
  [⟨"COM", "A"⟩, ⟨"A", "B"⟩, ⟨"COM", "C"⟩]

/-- A list whose relationships `X)Y` and `Y)X` form a cycle that is not connected
to `"COM"`. -/
def cycleRelationships : List Relationship :=
  [⟨"COM", "A"⟩, ⟨"X", "Y"⟩, ⟨"Y", "X"⟩]

/-- A list in which the identifier `B` is the child of two relationships, one of
them with a parent that is neither `"COM"` nor a child. -/
def sharedChildRelationships : List Relationship :=
  [⟨"COM", "B"⟩, ⟨"X", "B"⟩]

/-- A list with the orphan relationship `X)B`: its parent is neither `"COM"` nor
a child. -/
def orphanRelationships : List Relationship :=
  [⟨"COM", "A"⟩, ⟨"X", "B"⟩]

/-- An identifier for which the run of `buildTree` from the default root calls
`buildTree`: `"COM"`, and the defined name of every record whose parent is such
an identifier. -/
inductive Reached (data : List SpaceObject) : String → Prop
  | root : Reached data COM
  | step (item : SpaceObject) (y : String) :
      item ∈ data → Reached data item.parent → item.name = some y → Reached data y

mutual
/-- The subtree rooted at the node is a single chain: every node of it has at
most one child. -/
def SpaceObject.isChain : SpaceObject → Bool
  | SpaceObject.mk _ _ none => true
  | SpaceObject.mk _ _ (some cs) => isChain cs
/-- The list of trees is a single chain: it is empty, or it has one root whose
subtree is a single chain. -/
def isChain : List SpaceObject → Bool
  | [] => true
  | c :: rest => rest.isEmpty && c.isChain
end

/-- Every node of the list of trees is a root-level node without children. -/
def isFlat (t : List SpaceObject) : Bool :=
  t.all (fun c => (c.children.getD []).isEmpty)

/-! ## `buildTree` with the records in memory

The source attaches `children` to the records of `data` in place.  Here the
records lie in a memory, a list of cells; a reference to a record is its index
in `data`, and the memory is passed through the run. -/

/-- A record in memory.  An attached `children` array holds references to
records of `data`. -/
structure Cell where
  /-- Field `parent`. -/
  parent : String
  /-- Field `name` (`none` is JavaScript `undefined`). -/
  name : Option String
  /-- Field `children` (`none` when the attribute is absent). -/
  children : Option (List Nat)

/-- The fields of a record that `convertLineToObject` sets. -/
def Cell.key (c : Cell) : String × Option String :=
  (c.parent, c.name)

/-- The assignment `item.children = children` on the record at index `i`. -/
def setChildrenAt : List Cell → Nat → List Nat → List Cell
  | [], _, _ => []
  | c :: cs, 0, children => ⟨c.parent, c.name, some children⟩ :: cs
  | c :: cs, i + 1, children => c :: setChildrenAt cs i children

/-- The statement `if (children.length) { item.children = children }` for the
record at index `i`: the memory after the statement. -/
def attachAt (heap : List Cell) (i : Nat) (children : List Nat) : List Cell :=
  if children.length ≠ 0 then setChildrenAt heap i children else heap

/-- The loop `data.forEach((item) => ...)` of `buildTree` over the references
still to visit, with the current memory and the array `tree` built so far.  An
index outside the memory does not occur (the loop runs over the indices of
`data`) and is skipped. -/
def forEachCell (recurse : List Cell → Option String → Option (List Nat × List Cell))
    (parent : String) : List Nat → List Cell → List Nat → Option (List Nat × List Cell)
  | [], heap, tree => some (tree, heap)
  | i :: rest, heap, tree =>
    match heap[i]? with
    | none => forEachCell recurse parent rest heap tree
    | some item =>
      if item.parent = parent then
        match recurse heap item.name with
        | none => none
        | some (children, heap₁) =>
          forEachCell recurse parent rest (attachAt heap₁ i children) (tree ++ [i])
      else
        forEachCell recurse parent rest heap tree

/-- Source lines 55-70 with the memory made explicit: the result is the array of
references `tree` and the memory after the run. -/
def buildTreeHeap : Nat → List Cell → Option String → Option (List Nat × List Cell)
  | 0, _, _ => none
  | fuel + 1, heap, parent =>
    forEachCell (buildTreeHeap fuel) (parent.getD COM) (List.range heap.length) heap []

/-- An identifier for which a run of `buildTree` from `root` calls `buildTree`:
the root, and the name of every record whose parent is such an identifier, an
undefined name standing for the default `"COM"`. -/
inductive KeyReached (keys : List (String × Option String)) (root : String) : String → Prop
  | root : KeyReached keys root root
  | step (k : String × Option String) :
      k ∈ keys → KeyReached keys root k.1 → KeyReached keys root (k.2.getD COM)

/-- The memory holding the records `COM)A`, `A)B`, `X)Y`, none with a `children`
attribute. -/
def sampleHeap : List Cell :=
  [⟨"COM", some "A", none⟩, ⟨"A", some "B", none⟩, ⟨"X", some "Y", none⟩]

/-- What a run of `buildTree` from `root` may do to the memory: the records keep
their place, `parent` and `name`; the `children` attribute of a record is left
as it was, or, for a record whose parent the run reaches, set to a non-empty
array of references to records of the memory. -/
def Frame (root : String) (h h' : List Cell) : Prop :=
  h'.map Cell.key = h.map Cell.key ∧
    ∀ (i : Nat) (c c' : Cell), h[i]? = some c → h'[i]? = some c' →
      c'.children = c.children ∨
        (KeyReached (h.map Cell.key) root c.parent
          ∧ ∃ cs, c'.children = some cs ∧ cs ≠ [] ∧ ∀ j ∈ cs, j < h.length)

/-! ## Reading the tree back from the memory -/

/-- The record of a cell as `convertLineToObject` built it, without the
`children` attribute. -/
def Cell.toObject (c : Cell) : SpaceObject :=
  SpaceObject.mk c.parent c.name none

/-- The record behind a reference, without the `children` attribute.  A
reference outside the memory does not occur. -/
def objAt (h : List Cell) (i : Nat) : SpaceObject :=
  match h[i]? with
  | some c => c.toObject
  | none => SpaceObject.mk "" none none

/-- The references to the records whose parent is `x`, in the order of `data`. -/
def childRefs (h : List Cell) (x : String) : List Nat :=
  (List.range h.length).filter (fun i => (objAt h i).parent = x)

/-- Reads every reference of a list; fails when one of them cannot be read. -/
def readAll (read : Nat → Option SpaceObject) : List Nat → Option (List SpaceObject)
  | [] => some []
  | i :: rest =>
    match read i, readAll read rest with
    | some n, some ns => some (n :: ns)
    | _, _ => none

/-- The tree value of the record behind a reference: the record with the tree
values of the records its `children` array refers to.  The first argument bounds
the depth to which references are followed. -/
def readNode : Nat → List Cell → Nat → Option SpaceObject
  | 0, _, _ => none
  | depth + 1, h, i =>
    match h[i]? with
    | none => none
    | some c =>
      match c.children with
      | none => some (SpaceObject.mk c.parent c.name none)
      | some cs =>
        match readAll (readNode depth h) cs with
        | none => none
        | some ts => some (SpaceObject.mk c.parent c.name (some ts))

/-- Every attached `children` array is non-empty and holds the references to the
records whose parent is the record's name (`"COM"` for an undefined name). -/
def HeapInv (h : List Cell) : Prop :=
  ∀ (i : Nat) (c : Cell) (cs : List Nat), h[i]? = some c → c.children = some cs →
    cs ≠ [] ∧ cs = childRefs h (c.name.getD COM)

/-- The subtree below the identifier `x` is complete in the memory: a record
whose parent is `x` lacks the `children` attribute only when no record has its
name as parent, and the subtree below its name is complete. -/
inductive Built (h : List Cell) : String → Prop
  | intro (x : String) :
      (∀ (j : Nat) (c : Cell), h[j]? = some c → c.parent = x → c.children = none →
        childRefs h (c.name.getD COM) = []) →
      (∀ (j : Nat) (c : Cell), h[j]? = some c → c.parent = x → Built h (c.name.getD COM)) →
      Built h x

/-! ## `countOrbitsToRoot` with JavaScript's number addition

`countOrbitsToRoot` above adds mathematical integers.  The source adds
JavaScript numbers, IEEE 754 doubles, whose sum is the exact sum rounded to the
nearest double, ties going to the even significand.  The definitions below embed
that addition for numbers whose value is an integer (the two zeros are
identified). -/

/-- A JavaScript number whose value is an integer, or one of the values that
the addition of such numbers can also produce.  Only the integers that
`roundInt` leaves unchanged are doubles; `JSNumber.add` returns no others. -/
inductive JSNumber where
  | fin (value : Int)
  | posInf
  | negInf
  | nan
deriving DecidableEq

/-- The least `e`, searched from the second argument on for as many steps as the
first allows, with `n / 2 ^ e < 2 ^ 53`: the number of low bits of `n` that do
not fit into a significand of 53 bits. -/
def significandShift (n : Nat) : Nat → Nat → Nat
  | 0, e => e
  | steps + 1, e => if n / 2 ^ e < 2 ^ 53 then e else significandShift n steps (e + 1)

/-- Rounds a natural number to 53 significant bits: to the nearest multiple of
`2 ^ e`, `e` being the shift of the number, a tie going to the multiple with an
even significand. -/
def roundNat (n : Nat) : Nat :=
  if 2 * (n % 2 ^ significandShift n 1024 0) < 2 ^ significandShift n 1024 0 then
    (n / 2 ^ significandShift n 1024 0) * 2 ^ significandShift n 1024 0
  else if 2 * (n % 2 ^ significandShift n 1024 0) = 2 ^ significandShift n 1024 0
      ∧ (n / 2 ^ significandShift n 1024 0) % 2 = 0 then
    (n / 2 ^ significandShift n 1024 0) * 2 ^ significandShift n 1024 0
  else
    (n / 2 ^ significandShift n 1024 0 + 1) * 2 ^ significandShift n 1024 0

/-- The bound `2 ^ 1024` that the magnitude of no double reaches. -/
def doubleBound : Nat :=
  (2 ^ 256) ^ 4

/-- The double nearest to an integer: the integer rounded to 53 significant
bits, and an infinity when the rounded magnitude reaches `2 ^ 1024`. -/
def roundInt (v : Int) : JSNumber :=
  if roundNat v.natAbs < doubleBound then
    if v < 0 then JSNumber.fin (-(roundNat v.natAbs : Int))
    else JSNumber.fin (roundNat v.natAbs : Int)
  else if v < 0 then JSNumber.negInf
  else JSNumber.posInf

/-- The operator `+` on JavaScript numbers. -/
def JSNumber.add : JSNumber → JSNumber → JSNumber
  | JSNumber.fin a, JSNumber.fin b => roundInt (a + b)
  | JSNumber.nan, _ => JSNumber.nan
  | _, JSNumber.nan => JSNumber.nan
  | JSNumber.posInf, JSNumber.negInf => JSNumber.nan
  | JSNumber.negInf, JSNumber.posInf => JSNumber.nan
  | JSNumber.posInf, _ => JSNumber.posInf
  | _, JSNumber.posInf => JSNumber.posInf
  | JSNumber.negInf, _ => JSNumber.negInf
  | _, JSNumber.negInf => JSNumber.negInf

mutual
/-- Source lines 80-90 with JavaScript's addition: `totalSteps = depth`, then
`totalSteps += countOrbitsToRoot(child, depth + 1)` for every child. -/
def countOrbitsToRootNum : SpaceObject → JSNumber → JSNumber
  | SpaceObject.mk _ _ none, depth => depth
  | SpaceObject.mk _ _ (some cs), depth => countOrbitsLoopNum cs depth depth
/-- The loop `for (const child of node.children)` of `countOrbitsToRoot` with
JavaScript's addition. -/
def countOrbitsLoopNum : List SpaceObject → JSNumber → JSNumber → JSNumber
  | [], _, totalSteps => totalSteps
  | child :: rest, depth, totalSteps =>
    countOrbitsLoopNum rest depth
      (totalSteps.add (countOrbitsToRootNum child (depth.add (JSNumber.fin 1))))
end

/-- A node named `A` with the single child `B`, a leaf. -/
def parentOfLeaf : SpaceObject :=
  SpaceObject.mk "COM" (some "A") (some [SpaceObject.mk "A" (some "B") none])
/-! ## Basic facts about the counting loops -/

theorem countOrbitsLoop_eq (cs : List SpaceObject) (depth totalSteps : Int) :
    countOrbitsLoop cs depth totalSteps
      = totalSteps + (cs.map (fun c => countOrbitsToRoot c (depth + 1))).sum := by
  induction cs generalizing totalSteps with
  | nil => simp [countOrbitsLoop]
  | cons c cs ih => simp [countOrbitsLoop, ih, add_assoc]

theorem countTotalLoop_eq (tree : List SpaceObject) (totalSteps : Int) :
    countTotalLoop tree totalSteps
      = totalSteps + (tree.map (fun c => countOrbitsToRoot c 1)).sum := by
  induction tree generalizing totalSteps with
  | nil => simp [countTotalLoop]
  | cons c cs ih => simp [countTotalLoop, ih, add_assoc]

theorem countOrbitsToRoot_eq (node : SpaceObject) (depth : Int) :
    countOrbitsToRoot node depth
      = depth + ((node.children.getD []).map (fun c => countOrbitsToRoot c (depth + 1))).sum := by
  cases node with
  | mk p n c =>
    cases c with
    | none => simp [countOrbitsToRoot, SpaceObject.children]
    | some cs => simp [countOrbitsToRoot, SpaceObject.children, countOrbitsLoop_eq]

theorem subtree_eq (node : SpaceObject) (k : Nat) :
    node.subtree k = (node, k) :: forest (node.children.getD []) (k + 1) := by
  cases node with
  | mk p n c =>
    cases c with
    | none => simp [SpaceObject.subtree, SpaceObject.children, forest]
    | some cs => simp [SpaceObject.subtree, SpaceObject.children]

theorem forest_append (a b : List SpaceObject) (k : Nat) :
    forest (a ++ b) k = forest a k ++ forest b k := by
  induction a with
  | nil => simp [forest]
  | cons c cs ih => simp [forest, ih]

mutual
theorem countOrbitsToRoot_subtree : ∀ (node : SpaceObject) (k : Nat) (d : Int),
    countOrbitsToRoot node (d + k) = ((node.subtree k).map (fun x => d + (x.2 : Int))).sum
  | SpaceObject.mk _ _ none, k, d => by simp [countOrbitsToRoot, SpaceObject.subtree]
  | SpaceObject.mk _ _ (some cs), k, d => by
    have h := countOrbitsToRoot_forest cs (k + 1) d
    simp only [Nat.cast_add, Nat.cast_one, ← add_assoc] at h
    simp [countOrbitsToRoot, SpaceObject.subtree, countOrbitsLoop_eq, h]
theorem countOrbitsToRoot_forest : ∀ (cs : List SpaceObject) (k : Nat) (d : Int),
    (cs.map (fun c => countOrbitsToRoot c (d + k))).sum
      = ((forest cs k).map (fun x => d + (x.2 : Int))).sum
  | [], _, _ => by simp [forest]
  | c :: cs, k, d => by
    simp [forest, countOrbitsToRoot_subtree c k d, countOrbitsToRoot_forest cs k d]
end

/-- With the addition of mathematical integers, `countOrbitsToRoot node depth`
is the sum, over every node of the subtree rooted at `node` (the node included),
of `depth` plus the number of edges from `node` down to it; it satisfies the
recurrence `total(node, depth) = depth + sum of total(child, depth + 1)` over the
children, and a node without a `children` attribute gives exactly `depth`. -/
theorem countOrbitsToRoot_spec (node : SpaceObject) (depth : Int) :
    countOrbitsToRoot node depth = ((node.subtree 0).map (fun x => depth + (x.2 : Int))).sum
    ∧ countOrbitsToRoot node depth
        = depth + ((node.children.getD []).map (fun c => countOrbitsToRoot c (depth + 1))).sum
    ∧ (node.children = none → countOrbitsToRoot node depth = depth) := by
  refine ⟨?_, countOrbitsToRoot_eq node depth, ?_⟩
  · simpa using countOrbitsToRoot_subtree node 0 depth
  · intro h
    rw [countOrbitsToRoot_eq, h]
    simp

/-! ## Fuel -/

theorem forEachItem_mono (r₁ r₂ : Option String → Option (List SpaceObject))
    (h : ∀ x t, r₁ x = some t → r₂ x = some t) (p : String) (l : List SpaceObject) :
    ∀ (acc t : List SpaceObject), forEachItem r₁ p l acc = some t →
      forEachItem r₂ p l acc = some t := by
  induction l with
  | nil => intro acc t ht; simpa [forEachItem] using ht
  | cons item rest ih =>
    intro acc t ht
    by_cases hp : item.parent = p
    · cases hr : r₁ item.name with
      | none => simp [forEachItem, hp, hr] at ht
      | some cs =>
        simp only [forEachItem, hp, hr, if_true] at ht
        simp only [forEachItem, hp, h _ _ hr, if_true]
        exact ih _ _ ht
    · simp only [forEachItem, hp, if_false] at ht ⊢
      exact ih _ _ ht

theorem buildTree_succ (data : List SpaceObject) :
    ∀ (fuel : Nat) (p : Option String) (t : List SpaceObject),
      buildTree fuel data p = some t → buildTree (fuel + 1) data p = some t := by
  intro fuel
  induction fuel with
  | zero => intro p t h; simp [buildTree] at h
  | succ n ih =>
    intro p t h
    rw [buildTree] at h ⊢
    exact forEachItem_mono _ _ (fun x t hx => ih x t hx) _ _ _ _ h

theorem buildTree_add (data : List SpaceObject) (fuel : Nat) (p : Option String)
    (t : List SpaceObject) (h : buildTree fuel data p = some t) (k : Nat) :
    buildTree (fuel + k) data p = some t := by
  induction k with
  | zero => simpa using h
  | succ k ih => exact buildTree_succ data _ p t ih

theorem buildTree_le (data : List SpaceObject) (fuel fuel' : Nat) (p : Option String)
    (t : List SpaceObject) (h : buildTree fuel data p = some t) (hle : fuel ≤ fuel') :
    buildTree fuel' data p = some t := by
  obtain ⟨k, rfl⟩ := Nat.exists_eq_add_of_le hle
  exact buildTree_add data fuel p t h k

/-- Two terminating runs on the same arguments return the same tree. -/
theorem buildTree_unique (data : List SpaceObject) (f₁ f₂ : Nat) (p : Option String)
    (t₁ t₂ : List SpaceObject) (h₁ : buildTree f₁ data p = some t₁)
    (h₂ : buildTree f₂ data p = some t₂) : t₁ = t₂ := by
  have a := buildTree_le data f₁ (max f₁ f₂) p t₁ h₁ (le_max_left _ _)
  have b := buildTree_le data f₂ (max f₁ f₂) p t₂ h₂ (le_max_right _ _)
  rw [a] at b
  exact Option.some.inj b

/-! ## The scenarios -/

theorem chain_run :
    (buildTree 12 (chainLines.map convertLineToObject) none).map countTotalOrbits = some 66 := by
  decide

theorem branch_run :
    (buildTree 12 (branchLines.map convertLineToObject) none).map
      (fun t => (countTotalOrbits t,
        ((forest t 1).filter (fun x => x.1.name = some "YOU")).map (fun x => x.2),
        ((forest t 1).filter (fun x => x.1.name = some "SAN")).map (fun x => x.2)))
      = some (86, [11], [9]) := by
  decide

/-- C4, as stated, fails: no terminating run of `buildTree` on the eleven parsed
lines of the linear chain has total 42. -/
theorem chain_total_ne_42 :
    ¬ ∃ fuel t, buildTree fuel (chainLines.map convertLineToObject) none = some t
      ∧ countTotalOrbits t = 42 := by
  rintro ⟨fuel, t, ht, h42⟩
  have h := chain_run
  cases h12 : buildTree 12 (chainLines.map convertLineToObject) none with
  | none => simp [h12] at h
  | some t' =>
    rw [h12] at h
    have := buildTree_unique _ _ _ _ _ _ ht h12
    subst this
    simp only [Option.map_some', Option.some.injEq] at h
    omega

/-- C4, amended: the eleven lines `COM)B`, `B)C`, ..., `K)L`, parsed with
`convertLineToObject` and passed through `buildTree` (recursion depth 12 or
more) and `countTotalOrbits`, give the total 66. -/
theorem chain_total_is_66 (k : Nat) :
    ∃ t, buildTree (12 + k) (chainLines.map convertLineToObject) none = some t
      ∧ countTotalOrbits t = 66 := by
  have h := chain_run
  cases h12 : buildTree 12 (chainLines.map convertLineToObject) none with
  | none => simp [h12] at h
  | some t' =>
    rw [h12] at h
    exact ⟨t', buildTree_add _ _ _ _ h12 k, by simpa using h⟩

/-- C5, as stated, fails: no terminating run of `buildTree` on the chain
extended by `K)YOU` and `I)SAN` has total 62. -/
theorem branch_total_ne_62 :
    ¬ ∃ fuel t, buildTree fuel (branchLines.map convertLineToObject) none = some t
      ∧ countTotalOrbits t = 62 := by
  rintro ⟨fuel, t, ht, h62⟩
  have h := branch_run
  cases h12 : buildTree 12 (branchLines.map convertLineToObject) none with
  | none => simp [h12] at h
  | some t' =>
    rw [h12] at h
    have := buildTree_unique _ _ _ _ _ _ ht h12
    subst this
    simp only [Option.map_some', Option.some.injEq, Prod.mk.injEq] at h
    omega

/-- C5, amended: appending `K)YOU` and `I)SAN` to the linear chain places `YOU`
at depth 11 and `SAN` at depth 9 (each occurs once in the tree, root-level nodes
being at depth 1), raises the total by 20 over the chain's total, and the
resulting total is 86. -/
theorem branch_total_is_86 (k : Nat) :
    ∃ t t₀, buildTree (12 + k) (branchLines.map convertLineToObject) none = some t
      ∧ buildTree (12 + k) (chainLines.map convertLineToObject) none = some t₀
      ∧ ((forest t 1).filter (fun x => x.1.name = some "YOU")).map (fun x => x.2) = [11]
      ∧ ((forest t 1).filter (fun x => x.1.name = some "SAN")).map (fun x => x.2) = [9]
      ∧ countTotalOrbits t = countTotalOrbits t₀ + 20
      ∧ countTotalOrbits t = 86 := by
  have h := branch_run
  have h0 := chain_run
  cases h12 : buildTree 12 (branchLines.map convertLineToObject) none with
  | none => simp [h12] at h
  | some t =>
    cases c12 : buildTree 12 (chainLines.map convertLineToObject) none with
    | none => simp [c12] at h0
    | some t₀ =>
      rw [h12] at h
      rw [c12] at h0
      simp only [Option.map_some', Option.some.injEq, Prod.mk.injEq] at h h0
      refine ⟨t, t₀, buildTree_add _ _ _ _ h12 k, buildTree_add _ _ _ _ c12 k, h.2.1, h.2.2, ?_,
        h.1⟩
      rw [h.1, h0]
      rfl

/-! ## Splitting a line -/

theorem splitChars_fst_no_sep (sep : Char) (l : List Char) : sep ∉ (splitChars sep l).1 := by
  induction l with
  | nil => simp [splitChars]
  | cons c cs ih =>
    by_cases h : c = sep
    · simp [splitChars, h]
    · simp only [splitChars, h, if_false, List.mem_cons, not_or]
      exact ⟨fun e => h e.symm, ih⟩

theorem splitChars_snd_no_sep (sep : Char) (l : List Char) :
    ∀ w ∈ (splitChars sep l).2, sep ∉ w := by
  induction l with
  | nil => simp [splitChars]
  | cons c cs ih =>
    by_cases h : c = sep
    · simp only [splitChars, h, if_true, List.mem_cons]
      rintro w (rfl | hw)
      · exact splitChars_fst_no_sep sep cs
      · exact ih w hw
    · simpa only [splitChars, h, if_false] using ih

theorem splitChars_length (sep : Char) (l : List Char) :
    (splitChars sep l).2.length = l.count sep := by
  induction l with
  | nil => simp [splitChars]
  | cons c cs ih =>
    by_cases h : c = sep
    · simp [splitChars, h, ih]
    · simp [splitChars, h, ih, List.count_cons]

theorem splitChars_join (sep : Char) (l : List Char) :
    (splitChars sep l).1 ++ ((splitChars sep l).2.map (fun w => sep :: w)).flatten = l := by
  induction l with
  | nil => simp [splitChars]
  | cons c cs ih =>
    by_cases h : c = sep
    · simp only [splitChars, h, if_true, List.map_cons, List.flatten_cons, List.nil_append,
        List.cons_append]
      rw [ih]
    · simp only [splitChars, h, if_false, List.cons_append]
      rw [ih]

theorem splitChars_of_not_mem (sep : Char) (l : List Char) (h : sep ∉ l) :
    splitChars sep l = (l, []) := by
  have h1 := splitChars_length sep l
  rw [List.count_eq_zero_of_not_mem h, List.length_eq_zero] at h1
  have h2 := splitChars_join sep l
  rw [h1] at h2
  simp only [List.map_nil, List.flatten_nil, List.append_nil] at h2
  exact Prod.ext h2 h1

/-! ## `convertLineToObject` -/

/-- C7: for a line with exactly one `)`, `convertLineToObject` returns a record
whose `name` is defined, with `parent ++ ")" ++ name = line` and with neither
field containing `)`: `parent` is the text before the separator and `name` the
text after it, both verbatim. -/
theorem convertLineToObject_one_sep (line : String) (h : line.data.count ')' = 1) :
    ∃ name, (convertLineToObject line).name = some name
      ∧ (convertLineToObject line).parent ++ ")" ++ name = line
      ∧ ')' ∉ (convertLineToObject line).parent.data
      ∧ ')' ∉ name.data := by
  have hlen := splitChars_length ')' line.data
  rw [h] at hlen
  obtain ⟨w, hw⟩ := List.length_eq_one.mp hlen
  have hjoin := splitChars_join ')' line.data
  rw [hw] at hjoin
  simp only [List.map_cons, List.map_nil, List.flatten_cons, List.flatten_nil,
    List.append_nil] at hjoin
  refine ⟨String.mk w, ?_, ?_, ?_, ?_⟩
  · simp [convertLineToObject, split, SpaceObject.name, hw]
  · apply String.ext
    simp only [convertLineToObject, split, SpaceObject.parent, String.data_append]
    simpa using hjoin
  · simpa [convertLineToObject, split, SpaceObject.parent] using
      splitChars_fst_no_sep ')' line.data
  · have := splitChars_snd_no_sep ')' line.data w (by simp [hw])
    simpa using this

theorem convertLineToObject_one_sep_witness :
    ("COM)B".data.count ')' = 1) ∧
    ∃ name, (convertLineToObject "COM)B").name = some name
      ∧ (convertLineToObject "COM)B").parent ++ ")" ++ name = "COM)B"
      ∧ ')' ∉ (convertLineToObject "COM)B").parent.data
      ∧ ')' ∉ name.data :=
  ⟨by decide, convertLineToObject_one_sep "COM)B" (by decide)⟩

/-- C8: for a line without `)` (the empty line included) `convertLineToObject`
returns the record whose `parent` is the whole line and whose `name` is
undefined; being a total function, it does not fail. -/
theorem convertLineToObject_no_sep (line : String) (h : ')' ∉ line.data) :
    convertLineToObject line = SpaceObject.mk line none none := by
  simp [convertLineToObject, split, splitChars_of_not_mem ')' line.data h]

theorem convertLineToObject_no_sep_witness :
    ')' ∉ "".data ∧ convertLineToObject "" = SpaceObject.mk "" none none :=
  ⟨by decide, convertLineToObject_no_sep "" (by decide)⟩

/-! ## Boundary cases of `buildTree` -/

/-- C9: an empty relationship list yields an empty tree for every root
identifier (given or defaulted) as soon as one level of recursion is allowed,
and the total of the empty tree is zero. -/
theorem buildTree_empty (fuel : Nat) (parent : Option String) :
    buildTree (fuel + 1) [] parent = some [] ∧ countTotalOrbits [] = 0 := by
  simp [buildTree, forEachItem, countTotalOrbits, countTotalLoop]

/-- C10: for an identifier `A` other than `"COM"`, the single relationship
`COM)A` yields the tree made of exactly one root-level node named `A` without a
`children` attribute, and the total of that tree is 1. -/
theorem buildTree_single (A : String) (hA : A ≠ COM) (fuel : Nat) :
    buildTree (fuel + 2) [SpaceObject.mk COM (some A) none] none
        = some [SpaceObject.mk COM (some A) none]
      ∧ countTotalOrbits [SpaceObject.mk COM (some A) none] = 1 := by
  have hA' : ¬ COM = A := fun e => hA e.symm
  constructor
  · simp [buildTree, forEachItem, SpaceObject.parent, SpaceObject.name, attachChildren, hA']
  · simp [countTotalOrbits, countTotalLoop, countOrbitsToRoot]

theorem buildTree_single_witness :
    "A" ≠ COM ∧
    buildTree 2 [SpaceObject.mk COM (some "A") none] none
        = some [SpaceObject.mk COM (some "A") none]
      ∧ countTotalOrbits [SpaceObject.mk COM (some "A") none] = 1 :=
  ⟨by decide, buildTree_single "A" (by decide) 0⟩

/-! ## The shape of the tree built by `buildTree` -/

theorem attachChildren_name (item : SpaceObject) (cs : List SpaceObject) :
    (attachChildren item cs).name = item.name := by
  cases item with
  | mk p n c => by_cases h : cs.length = 0 <;> simp [attachChildren, SpaceObject.setChildren, SpaceObject.name, h]

theorem attachChildren_parent (item : SpaceObject) (cs : List SpaceObject) :
    (attachChildren item cs).parent = item.parent := by
  cases item with
  | mk p n c => by_cases h : cs.length = 0 <;> simp [attachChildren, SpaceObject.setChildren, SpaceObject.parent, h]

theorem attachChildren_children (item : SpaceObject) (cs : List SpaceObject)
    (hfresh : item.children = none) :
    (attachChildren item cs).children.getD [] = cs := by
  cases item with
  | mk p n c =>
    cases cs with
    | nil => simpa [attachChildren] using congrArg (fun o => Option.getD o []) hfresh
    | cons a l => simp [attachChildren, SpaceObject.setChildren, SpaceObject.children]

theorem forall₂_exists_left {α β : Type} {R : α → β → Prop} {l : List α} {ts : List β}
    (h : List.Forall₂ R l ts) : ∀ b ∈ ts, ∃ a ∈ l, R a b := by
  induction h with
  | nil => simp
  | cons hab _ ih =>
    intro b hb
    rcases List.mem_cons.1 hb with rfl | hb
    · exact ⟨_, by simp, hab⟩
    · obtain ⟨a, ha, r⟩ := ih b hb
      exact ⟨a, List.mem_cons_of_mem _ ha, r⟩

theorem forall₂_exists_right {α β : Type} {R : α → β → Prop} {l : List α} {ts : List β}
    (h : List.Forall₂ R l ts) : ∀ a ∈ l, ∃ b ∈ ts, R a b := by
  induction h with
  | nil => simp
  | cons hab _ ih =>
    intro a ha
    rcases List.mem_cons.1 ha with rfl | ha
    · exact ⟨_, by simp, hab⟩
    · obtain ⟨b, hb, r⟩ := ih a ha
      exact ⟨b, List.mem_cons_of_mem _ hb, r⟩

theorem forall₂_map_eq {α β γ : Type} {R : α → β → Prop} {l : List α} {ts : List β}
    (f : α → γ) (g : β → γ) (h : List.Forall₂ R l ts) (hR : ∀ a b, R a b → g b = f a) :
    ts.map g = l.map f := by
  induction h with
  | nil => simp
  | cons hab _ ih => simp [hR _ _ hab, ih]

/-- What a completed run of the `forEach` loop has appended to `tree`: one node
per item whose parent matches, in the order of the items, each being the item
with the result of its recursive call attached. -/
theorem forEachItem_some (recurse : Option String → Option (List SpaceObject)) (p : String)
    (l : List SpaceObject) :
    ∀ (acc t : List SpaceObject), forEachItem recurse p l acc = some t →
      ∃ ts, t = acc ++ ts ∧
        List.Forall₂ (fun item node => ∃ cs, recurse item.name = some cs
            ∧ node = attachChildren item cs)
          (l.filter (fun item => item.parent = p)) ts := by
  induction l with
  | nil =>
    intro acc t h
    simp only [forEachItem, Option.some.injEq] at h
    exact ⟨[], by simp [h], by simp⟩
  | cons item rest ih =>
    intro acc t h
    by_cases hp : item.parent = p
    · cases hr : recurse item.name with
      | none => simp [forEachItem, hp, hr] at h
      | some cs =>
        simp only [forEachItem, hp, hr, if_true] at h
        obtain ⟨ts, rfl, hts⟩ := ih _ _ h
        refine ⟨attachChildren item cs :: ts, by simp, ?_⟩
        simp only [hp, decide_True, List.filter_cons_of_pos]
        exact List.Forall₂.cons ⟨cs, hr, rfl⟩ hts
    · simp only [forEachItem, hp, if_false] at h
      obtain ⟨ts, rfl, hts⟩ := ih _ _ h
      refine ⟨ts, rfl, ?_⟩
      simpa [hp] using hts

theorem buildTree_some (data : List SpaceObject) (fuel : Nat) (p : Option String)
    (t : List SpaceObject) (h : buildTree fuel data p = some t) :
    ∃ n, fuel = n + 1 ∧
      List.Forall₂ (fun item node => ∃ cs, buildTree n data item.name = some cs
          ∧ node = attachChildren item cs)
        (data.filter (fun item => item.parent = p.getD COM)) t := by
  cases fuel with
  | zero => simp [buildTree] at h
  | succ n =>
    rw [buildTree] at h
    obtain ⟨ts, rfl, hts⟩ := forEachItem_some _ _ _ _ _ h
    exact ⟨n, rfl, by simpa using hts⟩

theorem mem_forest (t : List SpaceObject) (k : Nat) (x : SpaceObject × Nat) :
    x ∈ forest t k ↔ ∃ n ∈ t, x ∈ n.subtree k := by
  induction t with
  | nil => simp [forest]
  | cons c cs ih => simp [forest, ih]

/-- Every node of a tree built from records without a `children` attribute is
an input record to which the result of `buildTree` on its name is attached. -/
theorem buildTree_node (data : List SpaceObject) (hfresh : ∀ item ∈ data, item.children = none) :
    ∀ (fuel : Nat) (p : Option String) (t : List SpaceObject) (k : Nat),
      buildTree fuel data p = some t → ∀ x ∈ forest t k,
        ∃ item ∈ data, ∃ fuel' cs, buildTree fuel' data item.name = some cs
          ∧ x.1 = attachChildren item cs := by
  intro fuel
  induction fuel with
  | zero => intro p t k h; simp [buildTree] at h
  | succ n ih =>
    intro p t k h x hx
    obtain ⟨m, hm, hall⟩ := buildTree_some data _ p t h
    obtain rfl : n = m := by omega
    obtain ⟨node, hnode, hxn⟩ := (mem_forest t k x).1 hx
    obtain ⟨item, hitem, cs, hcs, rfl⟩ := forall₂_exists_left hall node hnode
    have hitem' : item ∈ data := (List.mem_filter.1 hitem).1
    rw [subtree_eq, attachChildren_children item cs (hfresh item hitem')] at hxn
    rcases List.mem_cons.1 hxn with rfl | hxn
    · exact ⟨item, hitem', n, cs, hcs, rfl⟩
    · exact ih item.name cs (k + 1) hcs x hxn

/-- C6: when `buildTree` terminates on records without a `children` attribute,
the names of the root-level nodes of the result are, in order, the names of the
records whose parent is the requested one, in input order, without sorting or
deduplication; and the names of the children of every node of the tree are, in
order, the names of the records whose parent is that node's name. -/
theorem buildTree_order (data : List SpaceObject)
    (hfresh : ∀ item ∈ data, item.children = none) (fuel : Nat) (p : Option String)
    (t : List SpaceObject) (h : buildTree fuel data p = some t) :
    t.map SpaceObject.name
        = (data.filter (fun item => item.parent = p.getD COM)).map SpaceObject.name
      ∧ ∀ x ∈ forest t 1,
          (x.1.children.getD []).map SpaceObject.name
            = (data.filter (fun item => item.parent = x.1.name.getD COM)).map SpaceObject.name := by
  have key : ∀ (fuel : Nat) (p : Option String) (t : List SpaceObject),
      buildTree fuel data p = some t →
        t.map SpaceObject.name
          = (data.filter (fun item => item.parent = p.getD COM)).map SpaceObject.name := by
    intro fuel p t h
    obtain ⟨n, _, hall⟩ := buildTree_some data fuel p t h
    refine forall₂_map_eq _ _ hall ?_
    rintro a b ⟨cs, _, rfl⟩
    exact attachChildren_name a cs
  refine ⟨key fuel p t h, ?_⟩
  intro x hx
  obtain ⟨item, hitem, fuel', cs, hcs, hx1⟩ := buildTree_node data hfresh fuel p t 1 h x hx
  rw [hx1, attachChildren_children item cs (hfresh item hitem), attachChildren_name]
  exact key fuel' item.name cs hcs

theorem buildTree_order_witness :
    (∀ item ∈ sampleData, item.children = none) ∧ buildTree 3 sampleData none = some sampleTree
      ∧ sampleTree.map SpaceObject.name
          = (sampleData.filter (fun item => item.parent = (none : Option String).getD COM)).map
              SpaceObject.name
      ∧ ∀ x ∈ forest sampleTree 1,
          (x.1.children.getD []).map SpaceObject.name
            = (sampleData.filter (fun item => item.parent = x.1.name.getD COM)).map
                SpaceObject.name :=
  ⟨by simp [sampleData, SpaceObject.children], rfl,
    buildTree_order sampleData (by simp [sampleData, SpaceObject.children]) 3 none sampleTree rfl⟩

/-! ## Depth of an identifier in a well-formed relationship list -/

theorem WellFormed.singleParent {S : List Relationship} (hwf : WellFormed S) :
    SingleParent S :=
  ⟨hwf.uniqueChild, hwf.rootNotChild⟩

theorem SingleParent.child_inj {S : List Relationship} (hsp : SingleParent S)
    {r r' : Relationship} (hr : r ∈ S) (hr' : r' ∈ S) (h : r.child = r'.child) : r = r' :=
  List.inj_on_of_nodup_map hsp.uniqueChild hr hr' h

theorem SingleParent.child_ne_com {S : List Relationship} (hsp : SingleParent S)
    {r : Relationship} (hr : r ∈ S) : r.child ≠ COM := by
  intro h
  exact hsp.rootNotChild (h ▸ List.mem_map_of_mem _ hr)

theorem WellFormed.eq_of_child_eq {S : List Relationship} (hwf : WellFormed S)
    {r r' : Relationship} (hr : r ∈ S) (hr' : r' ∈ S) (h : r.child = r'.child) : r = r' :=
  List.inj_on_of_nodup_map hwf.uniqueChild hr hr' h

theorem WellFormed.child_ne_root {S : List Relationship} (hwf : WellFormed S)
    {r : Relationship} (hr : r ∈ S) : r.child ≠ COM := by
  intro h
  exact hwf.rootNotChild (h ▸ List.mem_map_of_mem _ hr)

theorem Reachable.exists_depth {S : List Relationship} {x : String} (h : Reachable S x) :
    ∃ n, Depth S x n := by
  induction h with
  | root => exact ⟨0, Depth.root⟩
  | step r hr _ ih =>
    obtain ⟨n, hn⟩ := ih
    exact ⟨n + 1, Depth.step r n hr hn⟩

theorem Depth.reachable {S : List Relationship} {x : String} {n : Nat} (h : Depth S x n) :
    Reachable S x := by
  induction h with
  | root => exact Reachable.root
  | step r n hr _ ih => exact Reachable.step r hr ih

theorem Depth.inv {S : List Relationship} {x : String} {m : Nat} (h : Depth S x m) :
    (x = COM ∧ m = 0) ∨ ∃ r k, r ∈ S ∧ r.child = x ∧ m = k + 1 ∧ Depth S r.parent k := by
  cases h with
  | root => exact Or.inl ⟨rfl, rfl⟩
  | step r k hr hd => exact Or.inr ⟨r, k, hr, rfl, rfl, hd⟩

theorem Depth.unique {S : List Relationship} (hsp : SingleParent S) {x : String} {n m : Nat}
    (h₁ : Depth S x n) (h₂ : Depth S x m) : n = m := by
  induction h₁ generalizing m with
  | root =>
    rcases h₂.inv with ⟨_, rfl⟩ | ⟨r, k, hr, hx, _, _⟩
    · rfl
    · exact absurd hx (hsp.child_ne_com hr)
  | step r n hr hd ih =>
    rcases h₂.inv with ⟨hx, _⟩ | ⟨r', k, hr', hx, rfl, hd'⟩
    · exact absurd hx (hsp.child_ne_com hr)
    · have := hsp.child_inj hr' hr hx
      subst this
      rw [ih hd']

theorem find?_child {S : List Relationship} (hwf : WellFormed S) {r : Relationship}
    (hr : r ∈ S) : S.find? (fun r' => r'.child = r.child) = some r := by
  cases hf : S.find? (fun r' => r'.child = r.child) with
  | none =>
    have := List.find?_eq_none.1 hf r hr
    simp at this
  | some r' =>
    have h1 := List.find?_some hf
    have h2 := List.mem_of_find?_eq_some hf
    simp only [decide_eq_true_eq] at h1
    rw [hwf.eq_of_child_eq h2 hr h1]

theorem find?_root {S : List Relationship} (hwf : WellFormed S) :
    S.find? (fun r' => r'.child = COM) = none := by
  rw [List.find?_eq_none]
  intro r hr
  simpa using hwf.child_ne_root hr

/-- Followed for enough steps, the parent chain of an identifier at depth `n`
has length `n`. -/
theorem numAncestors_eq {S : List Relationship} (hwf : WellFormed S) {x : String} {n : Nat}
    (h : Depth S x n) : ∀ fuel, n ≤ fuel → numAncestors S fuel x = n := by
  induction h with
  | root =>
    intro fuel _
    cases fuel with
    | zero => rfl
    | succ f => simp [numAncestors, find?_root hwf]
  | step r n hr _ ih =>
    intro fuel hf
    cases fuel with
    | zero => omega
    | succ f =>
      simp only [numAncestors, find?_child hwf hr]
      rw [ih f (by omega)]

/-- The identifiers on the parent chain of an identifier at depth `n` are `n`
distinct children, so the depth is at most the number of relationships. -/
theorem Depth.le_length {S : List Relationship} (hsp : SingleParent S) {x : String} {n : Nat}
    (h : Depth S x n) : n ≤ S.length := by
  have key : ∃ l : List String, l.length = n ∧ l.Nodup ∧ l ⊆ S.map Relationship.child
      ∧ ∀ y ∈ l, ∃ m, m ≤ n ∧ Depth S y m := by
    induction h with
    | root => exact ⟨[], rfl, List.nodup_nil, by simp, by simp⟩
    | step r n hr hd ih =>
      obtain ⟨l, hlen, hnd, hsub, hdep⟩ := ih
      refine ⟨r.child :: l, by simp [hlen], ?_, ?_, ?_⟩
      · refine List.nodup_cons.2 ⟨?_, hnd⟩
        intro hmem
        obtain ⟨m, hm, hdm⟩ := hdep _ hmem
        have := Depth.unique hsp hdm (Depth.step r n hr hd)
        omega
      · intro y hy
        rcases List.mem_cons.1 hy with rfl | hy
        · exact List.mem_map_of_mem _ hr
        · exact hsub hy
      · intro y hy
        rcases List.mem_cons.1 hy with rfl | hy
        · exact ⟨n + 1, le_refl _, Depth.step r n hr hd⟩
        · obtain ⟨m, hm, hdm⟩ := hdep y hy
          exact ⟨m, by omega, hdm⟩
  obtain ⟨l, hlen, hnd, hsub, _⟩ := key
  have := (List.subperm_of_subset hnd hsub).length_le
  simpa [hlen] using this

theorem ancestorCount_eq {S : List Relationship} (hwf : WellFormed S) {x : String} {n : Nat}
    (h : Depth S x n) : ancestorCount S x = n :=
  numAncestors_eq hwf h S.length (h.le_length hwf.singleParent)

/-! ## Identifiers below an identifier -/

theorem Descends.inv_top {S : List Relationship} {a y : String} (h : Descends S a y) :
    ∃ r ∈ S, r.parent = a ∧ (r.child = y ∨ Descends S r.child y) := by
  cases h with
  | child r hr => exact ⟨r, hr, rfl, Or.inl rfl⟩
  | step r y hr hd => exact ⟨r, hr, rfl, Or.inr hd⟩

theorem Descends.depth {S : List Relationship} {a y : String} (h : Descends S a y) :
    ∀ n, Depth S a n → ∃ m, n < m ∧ Depth S y m := by
  induction h with
  | child r hr => exact fun n hn => ⟨n + 1, by omega, Depth.step r n hr hn⟩
  | step r y hr _ ih =>
    intro n hn
    obtain ⟨m, hm, hd⟩ := ih (n + 1) (Depth.step r n hr hn)
    exact ⟨m, by omega, hd⟩

theorem Descends.is_child {S : List Relationship} {a y : String} (h : Descends S a y) :
    ∃ r ∈ S, r.child = y := by
  induction h with
  | child r hr => exact ⟨r, hr, rfl⟩
  | step r y _ _ ih => exact ih

theorem Descends.snoc {S : List Relationship} {a b : String} (h : Descends S a b)
    (r : Relationship) (hr : r ∈ S) (hb : r.parent = b) : Descends S a r.child := by
  induction h with
  | child r' hr' => exact Descends.step r' _ hr' (hb ▸ Descends.child r hr)
  | step r' y hr' _ ih => exact Descends.step r' _ hr' (ih hb)

theorem Reachable.descends {S : List Relationship} {x : String} (h : Reachable S x) :
    x = COM ∨ Descends S COM x := by
  induction h with
  | root => exact Or.inl rfl
  | step r hr _ ih =>
    rcases ih with h | h
    · exact Or.inr (h ▸ Descends.child r hr)
    · exact Or.inr (h.snoc r hr rfl)

/-- In a well-formed list an identifier has at most one ancestor at each depth. -/
theorem Descends.unique_top {S : List Relationship} (hsp : SingleParent S) {a b y : String}
    {n : Nat} (ha : Descends S a y) (hb : Descends S b y) (da : Depth S a n)
    (db : Depth S b n) : a = b := by
  induction ha generalizing b n with
  | child r hr =>
    obtain ⟨r', hr', hp, h | h⟩ := hb.inv_top
    · rw [← hp, hsp.child_inj hr' hr h]
    · obtain ⟨m, hm, hd⟩ := h.depth (n + 1) (Depth.step r' n hr' (hp ▸ db))
      have := Depth.unique hsp hd (Depth.step r n hr da)
      omega
  | step r y hr hd ih =>
    obtain ⟨r', hr', hp, h | h⟩ := hb.inv_top
    · obtain ⟨m, hm, hd'⟩ := hd.depth (n + 1) (Depth.step r n hr da)
      have := Depth.unique hsp hd' (h ▸ Depth.step r' n hr' (hp ▸ db))
      omega
    · have e := ih h (Depth.step r n hr da) (Depth.step r' n hr' (hp ▸ db))
      rw [← hp, hsp.child_inj hr hr' e]

/-- Two identifiers of the same depth that both are, or lie above, a third one
are equal. -/
theorem below_unique {S : List Relationship} (hsp : SingleParent S) {a b y : String} {n : Nat}
    (ha : a = y ∨ Descends S a y) (hb : b = y ∨ Descends S b y) (da : Depth S a n)
    (db : Depth S b n) : a = b := by
  rcases ha with rfl | ha <;> rcases hb with rfl | hb
  · rfl
  · obtain ⟨m, hm, hd⟩ := hb.depth n db
    have := Depth.unique hsp hd da
    omega
  · obtain ⟨m, hm, hd⟩ := ha.depth n da
    have := Depth.unique hsp hd db
    omega
  · exact Descends.unique_top hsp ha hb da db

/-! ## `buildTree` on a relationship list -/

theorem buildTree_none (fuel : Nat) (data : List SpaceObject) :
    buildTree fuel data none = buildTree fuel data (some COM) := by
  cases fuel <;> rfl

/-- A completed run of `buildTree` on the records of a relationship list, in
terms of the relationships: one node per relationship whose parent is the
requested one, carrying the result of the run on its child. -/
theorem buildTree_rel (S : List Relationship) (fuel : Nat) (x : String)
    (t : List SpaceObject) (h : buildTree fuel (S.map Relationship.toObject) (some x) = some t) :
    ∃ n, fuel = n + 1 ∧
      List.Forall₂ (fun r node => ∃ cs,
          buildTree n (S.map Relationship.toObject) (some r.child) = some cs
          ∧ node.name = some r.child
          ∧ ∀ k, node.subtree k = (node, k) :: forest cs (k + 1))
        (S.filter (fun r => r.parent = x)) t := by
  obtain ⟨n, hn, hall⟩ := buildTree_some _ fuel _ t h
  refine ⟨n, hn, ?_⟩
  rw [List.filter_map, List.forall₂_map_left_iff] at hall
  have e : ((fun item : SpaceObject => decide (item.parent = (some x).getD COM))
      ∘ Relationship.toObject) = (fun r : Relationship => decide (r.parent = x)) := by
    funext r
    simp [Relationship.toObject, SpaceObject.parent]
  rw [e] at hall
  refine hall.imp ?_
  rintro r node ⟨cs, hcs, rfl⟩
  refine ⟨cs, hcs, ?_, ?_⟩
  · rw [attachChildren_name]; rfl
  · intro k
    rw [subtree_eq, attachChildren_children r.toObject cs rfl]

theorem forEachItem_terminates (recurse : Option String → Option (List SpaceObject))
    (p : String) (l : List SpaceObject) :
    (∀ item ∈ l, item.parent = p → ∃ cs, recurse item.name = some cs) →
      ∀ acc, ∃ t, forEachItem recurse p l acc = some t := by
  induction l with
  | nil => exact fun _ acc => ⟨acc, rfl⟩
  | cons item rest ih =>
    intro h acc
    have ih' := ih (fun i hi => h i (List.mem_cons_of_mem _ hi))
    by_cases hp : item.parent = p
    · obtain ⟨cs, hcs⟩ := h item (List.mem_cons_self _ _) hp
      simp only [forEachItem, hp, hcs, if_true]
      exact ih' _
    · simp only [forEachItem, hp, if_false]
      exact ih' _

/-- On a well-formed list, `buildTree` for an identifier at depth `n` returns
whenever the allowed recursion depth plus `n` exceeds the number of
relationships. -/
theorem buildTree_terminates {S : List Relationship} (hsp : SingleParent S) :
    ∀ (fuel : Nat) (x : String) (n : Nat), Depth S x n → S.length + 1 ≤ n + fuel →
      ∃ t, buildTree fuel (S.map Relationship.toObject) (some x) = some t := by
  intro fuel
  induction fuel with
  | zero =>
    intro x n hd hle
    have := hd.le_length hsp
    omega
  | succ f ih =>
    intro x n hd hle
    rw [buildTree]
    apply forEachItem_terminates
    intro item hitem hp
    obtain ⟨r, hr, rfl⟩ := List.mem_map.1 hitem
    have hp' : r.parent = x := hp
    exact ih r.child (n + 1) (Depth.step r n hr (hp' ▸ hd)) (by omega)

/-- In a tree built for an identifier at depth `n`, a node at level `l` (the
root-level nodes being at level `n + 1`) is named after an identifier of depth
`l`. -/
theorem buildTree_levels (S : List Relationship) :
    ∀ (fuel : Nat) (x : String) (t : List SpaceObject) (n : Nat), Depth S x n →
      buildTree fuel (S.map Relationship.toObject) (some x) = some t →
      ∀ z ∈ forest t (n + 1), ∃ y, z.1.name = some y ∧ Depth S y z.2 := by
  intro fuel
  induction fuel with
  | zero => intro x t n _ h; simp [buildTree] at h
  | succ f ih =>
    intro x t n hd h z hz
    obtain ⟨m, hm, hall⟩ := buildTree_rel S _ x t h
    obtain rfl : f = m := by omega
    obtain ⟨node, hnode, hzn⟩ := (mem_forest t _ z).1 hz
    obtain ⟨r, hr, cs, hcs, hname, hsub⟩ := forall₂_exists_left hall node hnode
    obtain ⟨hrS, hrp⟩ := List.mem_filter.1 hr
    have hrp' : r.parent = x := by simpa using hrp
    have hd' : Depth S r.child (n + 1) := Depth.step r n hrS (hrp' ▸ hd)
    rw [hsub] at hzn
    rcases List.mem_cons.1 hzn with rfl | hzn
    · exact ⟨r.child, hname, hd'⟩
    · exact ih r.child cs (n + 1) hd' hcs z hzn

/-- Every node of the tree built for an identifier is named after an identifier
below it. -/
theorem buildTree_descends (S : List Relationship) :
    ∀ (fuel : Nat) (x : String) (t : List SpaceObject) (k : Nat),
      buildTree fuel (S.map Relationship.toObject) (some x) = some t →
      ∀ z ∈ forest t k, ∃ y, z.1.name = some y ∧ Descends S x y := by
  intro fuel
  induction fuel with
  | zero => intro x t k h; simp [buildTree] at h
  | succ f ih =>
    intro x t k h z hz
    obtain ⟨m, hm, hall⟩ := buildTree_rel S _ x t h
    obtain rfl : f = m := by omega
    obtain ⟨node, hnode, hzn⟩ := (mem_forest t _ z).1 hz
    obtain ⟨r, hr, cs, hcs, hname, hsub⟩ := forall₂_exists_left hall node hnode
    obtain ⟨hrS, hrp⟩ := List.mem_filter.1 hr
    have hrp' : r.parent = x := by simpa using hrp
    rw [hsub] at hzn
    rcases List.mem_cons.1 hzn with rfl | hzn
    · exact ⟨r.child, hname, hrp' ▸ Descends.child r hrS⟩
    · obtain ⟨y, hy, hdesc⟩ := ih r.child cs (k + 1) hcs z hzn
      exact ⟨y, hy, hrp' ▸ Descends.step r y hrS hdesc⟩

/-- Every identifier below an identifier names a node of the tree built for
it. -/
theorem buildTree_mem_of_descends (S : List Relationship) {x y : String}
    (h : Descends S x y) :
    ∀ (fuel : Nat) (t : List SpaceObject) (k : Nat),
      buildTree fuel (S.map Relationship.toObject) (some x) = some t →
      ∃ z ∈ forest t k, z.1.name = some y := by
  induction h with
  | child r hr =>
    intro fuel t k h
    obtain ⟨m, _, hall⟩ := buildTree_rel S _ _ t h
    obtain ⟨node, hnode, cs, _, hname, hsub⟩ :=
      forall₂_exists_right hall r (List.mem_filter.2 ⟨hr, by simp⟩)
    exact ⟨(node, k), (mem_forest t k _).2 ⟨node, hnode, by simp [hsub]⟩, hname⟩
  | step r y hr _ ih =>
    intro fuel t k h
    obtain ⟨m, _, hall⟩ := buildTree_rel S _ _ t h
    obtain ⟨node, hnode, cs, hcs, _, hsub⟩ :=
      forall₂_exists_right hall r (List.mem_filter.2 ⟨hr, by simp⟩)
    obtain ⟨z, hz, hzn⟩ := ih m cs (k + 1) hcs
    exact ⟨z, (mem_forest t k _).2 ⟨node, hnode, by simp [hsub, hz]⟩, hzn⟩

/-- On a well-formed list, no two nodes of the tree built for a reachable
identifier carry the same name. -/
theorem buildTree_nodup {S : List Relationship} (hsp : SingleParent S) :
    ∀ (fuel : Nat) (x : String) (t : List SpaceObject) (n k : Nat), Depth S x n →
      buildTree fuel (S.map Relationship.toObject) (some x) = some t →
      ((forest t k).map (fun z => z.1.name)).Nodup := by
  intro fuel
  induction fuel with
  | zero => intro x t n k _ h; simp [buildTree] at h
  | succ f ih =>
    intro x t n k hd h
    obtain ⟨m, hm, hall⟩ := buildTree_rel S _ x t h
    obtain rfl : f = m := by omega
    have hnd : ((S.filter (fun r => r.parent = x)).map Relationship.child).Nodup :=
      List.Nodup.sublist ((List.filter_sublist S).map _) hsp.uniqueChild
    have hmem : ∀ r ∈ S.filter (fun r => r.parent = x), Depth S r.child (n + 1) := by
      intro r hr
      obtain ⟨hrS, hrp⟩ := List.mem_filter.1 hr
      have hrp' : r.parent = x := by simpa using hrp
      exact Depth.step r n hrS (hrp' ▸ hd)
    clear h
    revert hnd hmem
    generalize S.filter (fun r => r.parent = x) = l at hall
    induction hall with
    | nil => intro _ _; simp [forest]
    | @cons r node l ts hR hrest ihl =>
      intro hnd hmem
      obtain ⟨cs, hcs, hname, hsub⟩ := hR
      have hdr : Depth S r.child (n + 1) := hmem r (List.mem_cons_self _ _)
      rw [List.map_cons, List.nodup_cons] at hnd
      have below : ∀ z ∈ node.subtree k, ∃ y, z.1.name = some y
          ∧ (r.child = y ∨ Descends S r.child y) := by
        intro z hz
        rw [hsub] at hz
        rcases List.mem_cons.1 hz with rfl | hz
        · exact ⟨r.child, hname, Or.inl rfl⟩
        · obtain ⟨y, hy, hdesc⟩ := buildTree_descends S f r.child cs (k + 1) hcs z hz
          exact ⟨y, hy, Or.inr hdesc⟩
      simp only [forest, List.map_append]
      refine List.nodup_append.2 ⟨?_, ihl hnd.2 (fun r' hr' => hmem r' (List.mem_cons_of_mem _ hr')),
        ?_⟩
      · rw [hsub, List.map_cons, List.nodup_cons]
        refine ⟨?_, ih r.child cs (n + 1) (k + 1) hdr hcs⟩
        intro hin
        obtain ⟨z, hz, hzn⟩ := List.mem_map.1 hin
        obtain ⟨y, hy, hdesc⟩ := buildTree_descends S f r.child cs (k + 1) hcs z hz
        have hzn' : z.1.name = some r.child := by rw [hzn, hname]
        rw [hy] at hzn'
        obtain rfl : y = r.child := Option.some.inj hzn'
        obtain ⟨j, hj, hdj⟩ := hdesc.depth (n + 1) hdr
        have := Depth.unique hsp hdj hdr
        omega
      · intro o ho₁ ho₂
        obtain ⟨z₁, hz₁, rfl⟩ := List.mem_map.1 ho₁
        obtain ⟨z₂, hz₂, he⟩ := List.mem_map.1 ho₂
        obtain ⟨y, hy, hb₁⟩ := below z₁ hz₁
        obtain ⟨node', hnode', hz₂'⟩ := (mem_forest ts k z₂).1 hz₂
        obtain ⟨r', hr', cs', hcs', hname', hsub'⟩ := forall₂_exists_left hrest node' hnode'
        have hb₂ : r'.child = y ∨ Descends S r'.child y := by
          rw [hsub'] at hz₂'
          rcases List.mem_cons.1 hz₂' with rfl | hz₂'
          · left
            have : some r'.child = some y := by rw [← hname', ← hy]; exact he
            exact Option.some.inj this
          · obtain ⟨y', hy', hdesc⟩ := buildTree_descends S f r'.child cs' (k + 1) hcs' z₂ hz₂'
            right
            have : some y' = some y := by rw [← hy', ← hy]; exact he
            exact (Option.some.inj this) ▸ hdesc
        have e := below_unique hsp hb₁ hb₂ hdr (hmem r' (List.mem_cons_of_mem _ hr'))
        exact hnd.1 (e ▸ List.mem_map_of_mem _ hr')

/-- The total of a tree is the sum of the levels of its nodes, the root-level
nodes being at level 1. -/
theorem countTotalOrbits_eq_levels (t : List SpaceObject) :
    countTotalOrbits t = ((forest t 1).map (fun z => (z.2 : Int))).sum := by
  have h := countOrbitsToRoot_forest t 1 0
  simp only [Nat.cast_one, zero_add] at h
  rw [countTotalOrbits, countTotalLoop_eq, zero_add, h]

/-- On a well-formed list, the names of the nodes of the tree are the children of
the relationships, each exactly once. -/
theorem buildTree_names_perm {S : List Relationship} (hwf : WellFormed S) (fuel : Nat)
    (t : List SpaceObject) (k : Nat)
    (h : buildTree fuel (S.map Relationship.toObject) (some COM) = some t) :
    ((forest t k).map (fun z => z.1.name)).Perm (S.map (fun r => some r.child)) := by
  have hnd₁ := buildTree_nodup hwf.singleParent fuel COM t 0 k Depth.root h
  have hnd₂ : (S.map (fun r => some r.child)).Nodup := by
    have := hwf.uniqueChild.map (Option.some_injective String)
    simpa [List.map_map] using this
  rw [List.perm_ext_iff_of_nodup hnd₁ hnd₂]
  intro o
  constructor
  · intro ho
    obtain ⟨z, hz, rfl⟩ := List.mem_map.1 ho
    obtain ⟨y, hy, hdesc⟩ := buildTree_descends S fuel COM t k h z hz
    obtain ⟨r, hr, rfl⟩ := hdesc.is_child
    rw [hy]
    exact List.mem_map.2 ⟨r, hr, rfl⟩
  · intro ho
    obtain ⟨r, hr, rfl⟩ := List.mem_map.1 ho
    rcases (Reachable.step r hr (hwf.reachable r hr)).descends with hc | hdesc
    · exact absurd hc (hwf.child_ne_root hr)
    · obtain ⟨z, hz, hzn⟩ := buildTree_mem_of_descends S hdesc fuel t k h
      exact List.mem_map.2 ⟨z, hz, hzn⟩

/-- On a well-formed list `buildTree` returns within recursion depth
`S.length + 1`, and the total of its tree is the sum of the ancestor counts of
the children. -/
theorem total_eq_sum_ancestors {S : List Relationship} (hwf : WellFormed S) (fuel : Nat)
    (hfuel : S.length < fuel) :
    ∃ t, buildTree fuel (S.map Relationship.toObject) none = some t
      ∧ countTotalOrbits t = (S.map (fun r => (ancestorCount S r.child : Int))).sum := by
  obtain ⟨t, ht⟩ := buildTree_terminates hwf.singleParent fuel COM 0 Depth.root (by omega)
  refine ⟨t, by rw [buildTree_none, ht], ?_⟩
  rw [countTotalOrbits_eq_levels]
  have e₁ : (forest t 1).map (fun z => (z.2 : Int))
      = ((forest t 1).map (fun z => z.1.name)).map
          (fun o => o.elim 0 (fun y => (ancestorCount S y : Int))) := by
    rw [List.map_map]
    apply List.map_congr_left
    intro z hz
    obtain ⟨y, hy, hd⟩ := buildTree_levels S fuel COM t 0 Depth.root ht z hz
    simp [hy, ancestorCount_eq hwf hd]
  rw [e₁, ((buildTree_names_perm hwf fuel t 1 ht).map _).sum_eq, List.map_map]
  rfl

theorem Depth.mono {S S' : List Relationship} (hsub : ∀ r ∈ S, r ∈ S') {x : String} {n : Nat}
    (h : Depth S x n) : Depth S' x n := by
  induction h with
  | root => exact Depth.root
  | step r n hr _ ih => exact Depth.step r n (hsub r hr) ih

theorem WellFormed.perm {S S' : List Relationship} (hwf : WellFormed S) (hperm : S'.Perm S) :
    WellFormed S' where
  uniqueChild := ((hperm.map Relationship.child).nodup_iff).2 hwf.uniqueChild
  rootNotChild := fun h => hwf.rootNotChild ((hperm.map Relationship.child).mem_iff.1 h)
  reachable := by
    intro r hr
    obtain ⟨n, hn⟩ := (hwf.reachable r (hperm.mem_iff.1 hr)).exists_depth
    exact (hn.mono (fun r hr => hperm.mem_iff.2 hr)).reachable

theorem ancestorCount_perm {S S' : List Relationship} (hwf : WellFormed S)
    (hperm : S'.Perm S) {r : Relationship} (hr : r ∈ S) :
    ancestorCount S' r.child = ancestorCount S r.child := by
  obtain ⟨n, hn⟩ := (Reachable.step r hr (hwf.reachable r hr)).exists_depth
  rw [ancestorCount_eq hwf hn,
    ancestorCount_eq (hwf.perm hperm) (hn.mono (fun r hr => hperm.mem_iff.2 hr))]

theorem sampleRelationships_wellFormed : WellFormed sampleRelationships where
  uniqueChild := by decide
  rootNotChild := by decide
  reachable := by
    intro r hr
    simp only [sampleRelationships, List.mem_cons, List.mem_singleton, List.not_mem_nil,
      or_false] at hr
    rcases hr with rfl | rfl | rfl
    · exact Reachable.root
    · exact Reachable.step ⟨"COM", "A"⟩ (by simp [sampleRelationships]) Reachable.root
    · exact Reachable.root

/-! ## The total on well-formed relationship lists -/

/-- C1: for a well-formed relationship list `S`, `buildTree` returns (recursion
depth `S.length + 1` suffices) and `countTotalOrbits` of its tree is the sum,
over the relationships of `S`, of the number of ancestors of the child, which is
the length of its parent chain up to `"COM"`. -/
theorem countTotalOrbits_buildTree (S : List Relationship) (hwf : WellFormed S) (fuel : Nat)
    (hfuel : S.length < fuel) :
    (∃ t, buildTree fuel (S.map Relationship.toObject) none = some t
      ∧ countTotalOrbits t = (S.map (fun r => (ancestorCount S r.child : Int))).sum)
    ∧ ∀ r ∈ S, Depth S r.child (ancestorCount S r.child) := by
  refine ⟨total_eq_sum_ancestors hwf fuel hfuel, ?_⟩
  intro r hr
  obtain ⟨n, hn⟩ := (Reachable.step r hr (hwf.reachable r hr)).exists_depth
  rw [ancestorCount_eq hwf hn]
  exact hn

theorem countTotalOrbits_buildTree_witness :
    WellFormed sampleRelationships ∧ sampleRelationships.length < 4 ∧
    (∃ t, buildTree 4 (sampleRelationships.map Relationship.toObject) none = some t
      ∧ countTotalOrbits t
          = (sampleRelationships.map
              (fun r => (ancestorCount sampleRelationships r.child : Int))).sum)
    ∧ ∀ r ∈ sampleRelationships,
        Depth sampleRelationships r.child (ancestorCount sampleRelationships r.child) :=
  ⟨sampleRelationships_wellFormed, by decide,
    countTotalOrbits_buildTree sampleRelationships sampleRelationships_wellFormed 4 (by decide)⟩

/-- C2: for a well-formed relationship list `S` and a permutation `S'` of it,
`buildTree` returns on both (recursion depth `S.length + 1` suffices) and the
two trees have the same total. -/
theorem countTotalOrbits_perm (S S' : List Relationship) (hwf : WellFormed S)
    (hperm : S'.Perm S) (fuel : Nat) (hfuel : S.length < fuel) :
    ∃ t t', buildTree fuel (S.map Relationship.toObject) none = some t
      ∧ buildTree fuel (S'.map Relationship.toObject) none = some t'
      ∧ countTotalOrbits t' = countTotalOrbits t := by
  obtain ⟨t, ht, hc⟩ := total_eq_sum_ancestors hwf fuel hfuel
  obtain ⟨t', ht', hc'⟩ := total_eq_sum_ancestors (hwf.perm hperm) fuel
    (by rw [hperm.length_eq]; exact hfuel)
  refine ⟨t, t', ht, ht', ?_⟩
  rw [hc, hc', ← (hperm.map (fun r => (ancestorCount S r.child : Int))).sum_eq]
  congr 1
  apply List.map_congr_left
  intro r hr
  rw [ancestorCount_perm hwf hperm (hperm.mem_iff.1 hr)]

theorem countTotalOrbits_perm_witness :
    WellFormed sampleRelationships
    ∧ sampleRelationships.reverse.Perm sampleRelationships
    ∧ sampleRelationships.length < 4
    ∧ ∃ t t', buildTree 4 (sampleRelationships.map Relationship.toObject) none = some t
      ∧ buildTree 4 (sampleRelationships.reverse.map Relationship.toObject) none = some t'
      ∧ countTotalOrbits t' = countTotalOrbits t :=
  ⟨sampleRelationships_wellFormed, List.reverse_perm _, by decide,
    countTotalOrbits_perm sampleRelationships sampleRelationships.reverse
      sampleRelationships_wellFormed (List.reverse_perm _) 4 (by decide)⟩

/-! ## Termination and cycles -/

theorem buildTree_getD (fuel : Nat) (data : List SpaceObject) (p : Option String) :
    buildTree fuel data p = buildTree fuel data (some (p.getD COM)) := by
  cases fuel <;> rfl

theorem Descends.trans {S : List Relationship} {a b c : String} (h₁ : Descends S a b)
    (h₂ : Descends S b c) : Descends S a c := by
  induction h₁ with
  | child r hr => exact Descends.step r c hr h₂
  | step r y hr _ ih => exact Descends.step r c hr (ih h₂)

/-- An identifier at or below the root that is the parent of a relationship has
the child of that relationship below the root. -/
theorem below_child {S : List Relationship} {p x : String} (hx : x = p ∨ Descends S p x)
    {r : Relationship} (hr : r ∈ S) (hrp : r.parent = x) : Descends S p r.child := by
  rcases hx with rfl | hx
  · exact hrp ▸ Descends.child r hr
  · exact hx.snoc r hr hrp

/-- The recursion from a root below which no identifier lies on a cycle returns:
the children on the path from the root to the current call are distinct, so the
path is no longer than the relationship list. -/
theorem buildTree_terminates_below (S : List Relationship) (p : String)
    (hacyc : ∀ y, Descends S p y → ¬ Descends S y y) :
    ∀ (fuel : Nat) (x : String) (path : List String), (x = p ∨ Descends S p x) →
      path.Nodup → path ⊆ S.map Relationship.child →
      (∀ c ∈ path, c = x ∨ Descends S c x) → S.length + 1 ≤ path.length + fuel →
      ∃ t, buildTree fuel (S.map Relationship.toObject) (some x) = some t := by
  intro fuel
  induction fuel with
  | zero =>
    intro x path _ hnd hsub _ hle
    have := (List.subperm_of_subset hnd hsub).length_le
    simp only [List.length_map] at this
    omega
  | succ f ih =>
    intro x path hx hnd hsub hanc hle
    rw [buildTree]
    apply forEachItem_terminates
    intro item hitem hp
    obtain ⟨r, hr, rfl⟩ := List.mem_map.1 hitem
    have hrp : r.parent = x := hp
    have hbelow : Descends S p r.child := below_child hx hr hrp
    have hstep : Descends S x r.child := hrp ▸ Descends.child r hr
    apply ih r.child (r.child :: path) (Or.inr hbelow)
    · refine List.nodup_cons.2 ⟨?_, hnd⟩
      intro hmem
      rcases hanc _ hmem with h | h
      · exact hacyc _ hbelow (by rw [← h] at hstep; exact hstep)
      · exact hacyc _ hbelow (h.trans hstep)
    · intro c hc
      rcases List.mem_cons.1 hc with rfl | hc
      · exact List.mem_map_of_mem _ hr
      · exact hsub hc
    · intro c hc
      rcases List.mem_cons.1 hc with rfl | hc
      · exact Or.inl rfl
      · rcases hanc c hc with rfl | h
        · exact Or.inr hstep
        · exact Or.inr (h.trans hstep)
    · simp only [List.length_cons]
      omega

/-- C12: when no chain of relationships of `S` leads from an identifier back to
itself (children may repeat), `buildTree` returns for every root, given or
defaulted, as soon as the allowed recursion depth exceeds the number of
relationships. -/
theorem buildTree_terminates_of_acyclic (S : List Relationship)
    (hacyc : ∀ x, ¬ Descends S x x) (p : Option String) (fuel : Nat)
    (hfuel : S.length < fuel) :
    ∃ t, buildTree fuel (S.map Relationship.toObject) p = some t := by
  rw [buildTree_getD]
  exact buildTree_terminates_below S (p.getD COM) (fun y _ => hacyc y) fuel (p.getD COM) []
    (Or.inl rfl) List.nodup_nil (by simp) (by simp) (by simp; omega)

/-- On a list in which every identifier has at most one parent and `"COM"` has
none, no identifier below `"COM"` lies on a cycle. -/
theorem SingleParent.no_cycle_below {S : List Relationship} (hsp : SingleParent S)
    (y : String) (hy : Descends S COM y) : ¬ Descends S y y := by
  intro hc
  obtain ⟨n, _, hn⟩ := hy.depth 0 Depth.root
  obtain ⟨m, hm, hdm⟩ := hc.depth n hn
  have := Depth.unique hsp hdm hn
  omega

/-- C11: when each identifier is the child of at most one relationship and
`"COM"` is never a child, `buildTree` returns (recursion depth `S.length + 1`
suffices), also when identifiers not connected to `"COM"` form a cycle, and no
two nodes of the returned tree carry the same name: the result is a tree in
which no record is repeated. -/
theorem buildTree_singleParent (S : List Relationship) (hsp : SingleParent S) (fuel : Nat)
    (hfuel : S.length < fuel) :
    ∃ t, buildTree fuel (S.map Relationship.toObject) none = some t
      ∧ ((forest t 1).map (fun z => z.1.name)).Nodup := by
  obtain ⟨t, ht⟩ := buildTree_terminates hsp fuel COM 0 Depth.root (by omega)
  exact ⟨t, by rw [buildTree_none, ht], buildTree_nodup hsp fuel COM t 0 1 Depth.root ht⟩

theorem cycleRelationships_singleParent : SingleParent cycleRelationships :=
  ⟨by decide, by decide⟩

theorem cycleRelationships_cycle : Descends cycleRelationships "X" "X" :=
  Descends.step ⟨"X", "Y"⟩ "X" (by simp [cycleRelationships])
    (Descends.child ⟨"Y", "X"⟩ (by simp [cycleRelationships]))

theorem buildTree_singleParent_witness :
    SingleParent cycleRelationships ∧ Descends cycleRelationships "X" "X"
      ∧ cycleRelationships.length < 4
      ∧ ∃ t, buildTree 4 (cycleRelationships.map Relationship.toObject) none = some t
          ∧ ((forest t 1).map (fun z => z.1.name)).Nodup :=
  ⟨cycleRelationships_singleParent, cycleRelationships_cycle, by decide,
    buildTree_singleParent cycleRelationships cycleRelationships_singleParent 4 (by decide)⟩

theorem WellFormed.acyclic {S : List Relationship} (hwf : WellFormed S) (x : String) :
    ¬ Descends S x x := by
  intro hc
  obtain ⟨r, hr, rfl⟩ := hc.is_child
  obtain ⟨n, hn⟩ := (Reachable.step r hr (hwf.reachable r hr)).exists_depth
  obtain ⟨m, hm, hdm⟩ := hc.depth n hn
  have := Depth.unique hwf.singleParent hdm hn
  omega

theorem buildTree_terminates_of_acyclic_witness :
    (∀ x, ¬ Descends sampleRelationships x x) ∧ sampleRelationships.length < 4
      ∧ ∃ t, buildTree 4 (sampleRelationships.map Relationship.toObject) (some "A") = some t :=
  ⟨sampleRelationships_wellFormed.acyclic, by decide,
    buildTree_terminates_of_acyclic sampleRelationships sampleRelationships_wellFormed.acyclic
      (some "A") 4 (by decide)⟩

/-- A returning run for an identifier contains a returning run, of smaller
recursion depth, for every identifier below it. -/
theorem buildTree_smaller (S : List Relationship) {x y : String} (h : Descends S x y) :
    ∀ (fuel : Nat) (t : List SpaceObject),
      buildTree fuel (S.map Relationship.toObject) (some x) = some t →
      ∃ fuel' t', fuel' < fuel
        ∧ buildTree fuel' (S.map Relationship.toObject) (some y) = some t' := by
  induction h with
  | child r hr =>
    intro fuel t ht
    obtain ⟨n, hn, hall⟩ := buildTree_rel S fuel _ t ht
    obtain ⟨node, _, cs, hcs, _⟩ := forall₂_exists_right hall r (List.mem_filter.2 ⟨hr, by simp⟩)
    exact ⟨n, cs, by omega, hcs⟩
  | step r y hr _ ih =>
    intro fuel t ht
    obtain ⟨n, hn, hall⟩ := buildTree_rel S fuel _ t ht
    obtain ⟨node, _, cs, hcs, _⟩ := forall₂_exists_right hall r (List.mem_filter.2 ⟨hr, by simp⟩)
    obtain ⟨f', t', hf', ht'⟩ := ih n cs hcs
    exact ⟨f', t', by omega, ht'⟩

/-- The recursion for an identifier that lies on a cycle never returns. -/
theorem buildTree_on_cycle (S : List Relationship) {x : String} (h : Descends S x x) :
    ∀ fuel, buildTree fuel (S.map Relationship.toObject) (some x) = none := by
  intro fuel
  induction fuel using Nat.strong_induction_on with
  | _ fuel ih =>
    cases ht : buildTree fuel (S.map Relationship.toObject) (some x) with
    | none => rfl
    | some t =>
      obtain ⟨f', t', hf', ht'⟩ := buildTree_smaller S h fuel t ht
      rw [ih f' hf'] at ht'
      exact absurd ht' (by simp)

/-- C13, as stated, fails: `cycleRelationships` contains the cycle `X)Y`, `Y)X`,
and `buildTree` on it returns. -/
theorem cycle_unreached_returns :
    Descends cycleRelationships "X" "X"
      ∧ ∃ t, buildTree 2 (cycleRelationships.map Relationship.toObject) none = some t :=
  ⟨cycleRelationships_cycle, _, rfl⟩

/-- C13, amended: when an identifier that is the root passed to `buildTree`
(given or defaulted) or lies below it is on a cycle of relationships, the
recursion of `buildTree` from that root returns for no recursion depth. -/
theorem buildTree_cycle_diverges (S : List Relationship) (p : Option String) (x : String)
    (hx : x = p.getD COM ∨ Descends S (p.getD COM) x) (hc : Descends S x x) (fuel : Nat) :
    buildTree fuel (S.map Relationship.toObject) p = none := by
  rw [buildTree_getD]
  rcases hx with rfl | hx
  · exact buildTree_on_cycle S hc fuel
  · cases ht : buildTree fuel (S.map Relationship.toObject) (some (p.getD COM)) with
    | none => rfl
    | some t =>
      obtain ⟨f', t', _, ht'⟩ := buildTree_smaller S hx fuel t ht
      rw [buildTree_on_cycle S hc f'] at ht'
      exact absurd ht' (by simp)

theorem buildTree_cycle_diverges_witness :
    ("X" = (some "X" : Option String).getD COM
        ∨ Descends cycleRelationships ((some "X" : Option String).getD COM) "X")
      ∧ Descends cycleRelationships "X" "X"
      ∧ buildTree 7 (cycleRelationships.map Relationship.toObject) (some "X") = none :=
  ⟨Or.inl rfl, cycleRelationships_cycle,
    buildTree_cycle_diverges cycleRelationships (some "X") "X" (Or.inl rfl)
      cycleRelationships_cycle 7⟩

/-! ## Relationships that are not reached -/

/-- Every node of the tree built for an identifier is a relationship whose parent
is that identifier or lies below it. -/
theorem buildTree_node_rel (S : List Relationship) :
    ∀ (fuel : Nat) (x : String) (t : List SpaceObject) (k : Nat),
      buildTree fuel (S.map Relationship.toObject) (some x) = some t →
      ∀ z ∈ forest t k, ∃ r ∈ S, z.1.name = some r.child ∧ z.1.parent = r.parent
        ∧ (r.parent = x ∨ Descends S x r.parent) := by
  intro fuel
  induction fuel with
  | zero => intro x t k h; simp [buildTree] at h
  | succ f ih =>
    intro x t k h z hz
    obtain ⟨m, hm, hall⟩ := buildTree_some _ _ _ t h
    obtain rfl : f = m := by omega
    obtain ⟨node, hnode, hzn⟩ := (mem_forest t _ z).1 hz
    obtain ⟨item, hitem, cs, hcs, rfl⟩ := forall₂_exists_left hall node hnode
    obtain ⟨hmem, hp⟩ := List.mem_filter.1 hitem
    obtain ⟨r, hr, rfl⟩ := List.mem_map.1 hmem
    have hrp : r.parent = x := by simpa using hp
    rw [subtree_eq, attachChildren_children r.toObject cs rfl] at hzn
    rcases List.mem_cons.1 hzn with rfl | hzn
    · exact ⟨r, hr, by rw [attachChildren_name]; rfl, by rw [attachChildren_parent]; rfl,
        Or.inl hrp⟩
    · obtain ⟨r', hr', hn', hp', hb⟩ := ih r.child cs (k + 1) hcs z hzn
      refine ⟨r', hr', hn', hp', Or.inr ?_⟩
      have hstep : Descends S x r.child := hrp ▸ Descends.child r hr
      rcases hb with hb | hb
      · rw [hb]; exact hstep
      · exact hstep.trans hb

theorem forEachItem_congr (r₁ r₂ : Option String → Option (List SpaceObject)) (p : String)
    (l : List SpaceObject) (h : ∀ item ∈ l, item.parent = p → r₁ item.name = r₂ item.name) :
    ∀ acc, forEachItem r₁ p l acc = forEachItem r₂ p l acc := by
  induction l with
  | nil => intro acc; rfl
  | cons item rest ih =>
    intro acc
    have ih' := ih (fun i hi => h i (List.mem_cons_of_mem _ hi))
    by_cases hp : item.parent = p
    · simp only [forEachItem, hp, if_true, ← h item (List.mem_cons_self _ _) hp]
      cases r₁ item.name with
      | none => rfl
      | some cs => exact ih' _
    · simp only [forEachItem, hp, if_false]
      exact ih' _

theorem forEachItem_filter (recurse : Option String → Option (List SpaceObject)) (p : String)
    (q : SpaceObject → Bool) (l : List SpaceObject)
    (h : ∀ item ∈ l, item.parent = p → q item = true) :
    ∀ acc, forEachItem recurse p (l.filter q) acc = forEachItem recurse p l acc := by
  induction l with
  | nil => intro acc; rfl
  | cons item rest ih =>
    intro acc
    have ih' := ih (fun i hi => h i (List.mem_cons_of_mem _ hi))
    by_cases hq : q item = true
    · rw [List.filter_cons_of_pos hq]
      by_cases hp : item.parent = p
      · simp only [forEachItem, hp, if_true]
        cases recurse item.name with
        | none => rfl
        | some cs => exact ih' _
      · simp only [forEachItem, hp, if_false]
        exact ih' _
    · rw [List.filter_cons_of_neg hq]
      have hp : ¬ item.parent = p := fun hp => hq (h item (List.mem_cons_self _ _) hp)
      simp only [forEachItem, hp, if_false]
      exact ih' _

/-- Dropping the records whose parent is an identifier that is never asked for
(it is not the root and names no record) changes no run of `buildTree`. -/
theorem buildTree_filter_parent (data : List SpaceObject) (X : String) (hX : X ≠ COM)
    (hname : ∀ item ∈ data, item.name ≠ some X) :
    ∀ (fuel : Nat) (p : Option String), p.getD COM ≠ X →
      buildTree fuel (data.filter (fun item => item.parent ≠ X)) p = buildTree fuel data p := by
  intro fuel
  induction fuel with
  | zero => intro p _; rfl
  | succ f ih =>
    intro p hp
    rw [buildTree, buildTree, forEachItem_filter]
    · apply forEachItem_congr
      intro item hitem _
      apply ih
      cases hn : item.name with
      | none => exact fun e => hX e.symm
      | some y =>
        intro e
        exact hname item hitem (by rw [hn]; exact congrArg some e)
    · intro item _ hip
      simp only [decide_eq_true_eq]
      rw [hip]
      exact hp

/-- C14, as stated, fails: in `sharedChildRelationships` the relationship `X)B`
has a parent that is neither `"COM"` nor a child, `buildTree` returns, and the
child `B` names a node of the tree. -/
theorem orphan_child_is_node :
    (⟨"X", "B"⟩ : Relationship) ∈ sharedChildRelationships
      ∧ "X" ≠ COM
      ∧ "X" ∉ sharedChildRelationships.map Relationship.child
      ∧ ∃ t, buildTree 2 (sharedChildRelationships.map Relationship.toObject) none = some t
          ∧ ∃ z ∈ forest t 1, z.1.name = some "B" :=
  ⟨by decide, by decide, by decide, [SpaceObject.mk "COM" (some "B") none], rfl,
    (SpaceObject.mk "COM" (some "B") none, 1), by simp [forest, SpaceObject.subtree], rfl⟩

/-- C14, amended: when `buildTree` returns, a relationship whose parent is not
`"COM"` and is never a child is no node of the tree (no node has its parent);
when no other relationship has the same child, its child names no node; and
the tree, hence the total, is the one obtained without the relationships that
have this parent. -/
theorem orphan_excluded (S : List Relationship) (r : Relationship) (hr : r ∈ S)
    (hroot : r.parent ≠ COM) (horphan : r.parent ∉ S.map Relationship.child) (fuel : Nat)
    (t : List SpaceObject) (ht : buildTree fuel (S.map Relationship.toObject) none = some t) :
    (∀ z ∈ forest t 1, z.1.parent ≠ r.parent)
      ∧ ((∀ r' ∈ S, r'.child = r.child → r' = r) → ∀ z ∈ forest t 1, z.1.name ≠ some r.child)
      ∧ buildTree fuel ((S.filter (fun r' => r'.parent ≠ r.parent)).map Relationship.toObject)
          none = some t := by
  have hnot : ∀ r' ∈ S, (r'.parent = COM ∨ Descends S COM r'.parent) → r'.parent ≠ r.parent := by
    intro r' _ hb e
    rcases hb with hb | hb
    · exact hroot (e ▸ hb)
    · obtain ⟨r'', hr'', hc⟩ := hb.is_child
      exact horphan (e ▸ hc ▸ List.mem_map_of_mem _ hr'')
  rw [buildTree_none] at ht
  refine ⟨?_, ?_, ?_⟩
  · intro z hz
    obtain ⟨r', hr', _, hp, hb⟩ := buildTree_node_rel S fuel COM t 1 ht z hz
    rw [hp]
    exact hnot r' hr' hb
  · intro huniq z hz hzn
    obtain ⟨r', hr', hn, _, hb⟩ := buildTree_node_rel S fuel COM t 1 ht z hz
    rw [hn] at hzn
    have := huniq r' hr' (Option.some.inj hzn)
    subst this
    exact hnot r' hr' hb rfl
  · have hfilter : (S.filter (fun r' => r'.parent ≠ r.parent)).map Relationship.toObject
        = (S.map Relationship.toObject).filter (fun item => item.parent ≠ r.parent) := by
      rw [List.filter_map]
      rfl
    rw [hfilter, buildTree_filter_parent _ r.parent hroot ?_ fuel none (fun e => hroot e.symm),
      buildTree_none, ht]
    intro item hitem hn
    obtain ⟨r', hr', rfl⟩ := List.mem_map.1 hitem
    exact horphan (Option.some.inj hn ▸ List.mem_map_of_mem _ hr')

theorem orphan_excluded_witness :
    (⟨"X", "B"⟩ : Relationship) ∈ orphanRelationships
      ∧ (⟨"X", "B"⟩ : Relationship).parent ≠ COM
      ∧ (⟨"X", "B"⟩ : Relationship).parent ∉ orphanRelationships.map Relationship.child
      ∧ buildTree 2 (orphanRelationships.map Relationship.toObject) none
          = some [SpaceObject.mk "COM" (some "A") none]
      ∧ (∀ z ∈ forest [SpaceObject.mk "COM" (some "A") none] 1,
          z.1.parent ≠ (⟨"X", "B"⟩ : Relationship).parent)
      ∧ ((∀ r' ∈ orphanRelationships,
            r'.child = (⟨"X", "B"⟩ : Relationship).child → r' = ⟨"X", "B"⟩) →
          ∀ z ∈ forest [SpaceObject.mk "COM" (some "A") none] 1,
            z.1.name ≠ some (⟨"X", "B"⟩ : Relationship).child)
      ∧ buildTree 2 ((orphanRelationships.filter
            (fun r' => r'.parent ≠ (⟨"X", "B"⟩ : Relationship).parent)).map
              Relationship.toObject) none
          = some [SpaceObject.mk "COM" (some "A") none] :=
  ⟨by decide, by decide, by decide, rfl,
    orphan_excluded orphanRelationships ⟨"X", "B"⟩ (by decide) (by decide) (by decide) 2
      [SpaceObject.mk "COM" (some "A") none] rfl⟩

/-! ## The `children` attribute and undefined names -/

/-- Every node of a tree built from records without a `children` attribute is an
input record to which the result of a nested run, of smaller recursion depth,
on its name is attached. -/
theorem buildTree_node_lt (data : List SpaceObject)
    (hfresh : ∀ item ∈ data, item.children = none) :
    ∀ (fuel : Nat) (p : Option String) (t : List SpaceObject) (k : Nat),
      buildTree fuel data p = some t → ∀ x ∈ forest t k,
        ∃ item ∈ data, ∃ fuel' cs, fuel' < fuel ∧ buildTree fuel' data item.name = some cs
          ∧ x.1 = attachChildren item cs := by
  intro fuel
  induction fuel with
  | zero => intro p t k h; simp [buildTree] at h
  | succ n ih =>
    intro p t k h x hx
    obtain ⟨m, hm, hall⟩ := buildTree_some data _ p t h
    obtain rfl : n = m := by omega
    obtain ⟨node, hnode, hxn⟩ := (mem_forest t k x).1 hx
    obtain ⟨item, hitem, cs, hcs, rfl⟩ := forall₂_exists_left hall node hnode
    have hitem' : item ∈ data := (List.mem_filter.1 hitem).1
    rw [subtree_eq, attachChildren_children item cs (hfresh item hitem')] at hxn
    rcases List.mem_cons.1 hxn with rfl | hxn
    · exact ⟨item, hitem', n, cs, by omega, hcs, rfl⟩
    · obtain ⟨i, hi, f', c, hf', hc, he⟩ := ih item.name cs (k + 1) hcs x hxn
      exact ⟨i, hi, f', c, by omega, hc, he⟩

/-- In a tree built from the default root, every node has a defined name: a
node with an undefined name would contain a run from the default root of
smaller recursion depth, which returns the same tree. -/
theorem buildTree_names_defined (data : List SpaceObject)
    (hfresh : ∀ item ∈ data, item.children = none) :
    ∀ (fuel : Nat) (t : List SpaceObject), buildTree fuel data none = some t →
      ∀ k, ∀ z ∈ forest t k, ∃ y, z.1.name = some y := by
  intro fuel
  induction fuel using Nat.strong_induction_on with
  | _ fuel ih =>
    intro t ht k z hz
    cases hn : z.1.name with
    | some y => exact ⟨y, rfl⟩
    | none =>
      obtain ⟨item, _, f', cs, hf', hcs, he⟩ := buildTree_node_lt data hfresh fuel none t k ht z hz
      rw [he, attachChildren_name] at hn
      rw [hn] at hcs
      have := buildTree_unique data _ _ _ _ _ hcs ht
      subst this
      obtain ⟨y, hy⟩ := ih f' hf' cs hcs k z hz
      rw [he, attachChildren_name, hn] at hy
      exact absurd hy (by simp)

theorem attachChildren_fresh (item : SpaceObject) (cs : List SpaceObject)
    (hfresh : item.children = none) :
    (attachChildren item cs).children = if cs.length = 0 then none else some cs := by
  cases item with
  | mk p n c =>
    cases cs with
    | nil => simpa [attachChildren] using hfresh
    | cons a l => simp [attachChildren, SpaceObject.setChildren, SpaceObject.children]

/-- C15: in a tree returned by `buildTree` from records without a `children`
attribute, a node carries the attribute exactly when some input record has the
node's name as its parent, an attached list is never empty (a leaf has no
attribute), and in a tree built from the default root every node has a defined
name.  A node with an undefined name, possible only under another root, is
treated by `buildTree` as named `"COM"`. -/
theorem children_attribute (data : List SpaceObject)
    (hfresh : ∀ item ∈ data, item.children = none) (fuel : Nat) (p : Option String)
    (t : List SpaceObject) (ht : buildTree fuel data p = some t) :
    ∀ z ∈ forest t 1,
      (z.1.children ≠ none ↔ ∃ item ∈ data, item.parent = z.1.name.getD COM)
        ∧ (∀ cs, z.1.children = some cs → cs ≠ [])
        ∧ (p.getD COM = COM → ∃ y, z.1.name = some y) := by
  intro z hz
  obtain ⟨item, hitem, f', cs, _, hcs, he⟩ := buildTree_node_lt data hfresh fuel p t 1 ht z hz
  obtain ⟨n, _, hall⟩ := buildTree_some data f' item.name cs hcs
  have hlen := hall.length_eq
  have hattr := attachChildren_fresh item cs (hfresh item hitem)
  refine ⟨?_, ?_, ?_⟩
  · rw [he, hattr, attachChildren_name]
    constructor
    · intro h
      have hne : cs ≠ [] := by
        intro e
        simp [e] at h
      have hpos : 0 < (data.filter (fun i => i.parent = item.name.getD COM)).length := by
        rw [hlen]
        exact List.length_pos.2 hne
      obtain ⟨i, hi⟩ := List.exists_mem_of_length_pos hpos
      obtain ⟨hi₁, hi₂⟩ := List.mem_filter.1 hi
      exact ⟨i, hi₁, by simpa using hi₂⟩
    · rintro ⟨i, hi₁, hi₂⟩
      have hi : i ∈ data.filter (fun i => i.parent = item.name.getD COM) :=
        List.mem_filter.2 ⟨hi₁, by simpa using hi₂⟩
      have hne : cs ≠ [] := by
        intro e
        rw [e] at hlen
        rw [List.length_nil, List.length_eq_zero] at hlen
        rw [hlen] at hi
        simp at hi
      simp [List.length_eq_zero, hne]
  · intro cs' hcs'
    rw [he, hattr] at hcs'
    by_cases e : cs.length = 0
    · simp [e] at hcs'
    · simp only [e, if_false, Option.some.injEq] at hcs'
      rw [← hcs']
      exact fun h => e (by rw [h]; rfl)
  · intro hp
    have ht' : buildTree fuel data none = some t := by
      rw [buildTree_getD] at ht
      rw [buildTree_none, ← hp]
      exact ht
    exact buildTree_names_defined data hfresh fuel t ht' 1 z hz

theorem children_attribute_witness :
    (∀ item ∈ sampleData, item.children = none) ∧ buildTree 3 sampleData none = some sampleTree
      ∧ ∀ z ∈ forest sampleTree 1,
          (z.1.children ≠ none ↔ ∃ item ∈ sampleData, item.parent = z.1.name.getD COM)
            ∧ (∀ cs, z.1.children = some cs → cs ≠ [])
            ∧ ((none : Option String).getD COM = COM → ∃ y, z.1.name = some y) :=
  ⟨by simp [sampleData, SpaceObject.children], rfl,
    children_attribute sampleData (by simp [sampleData, SpaceObject.children]) 3 none sampleTree
      rfl⟩

/-- A returning run from the default root contains a returning run, of at most
the same recursion depth, for every identifier it reaches. -/
theorem buildTree_reached (data : List SpaceObject) {x : String} (h : Reached data x) :
    ∀ (fuel : Nat) (t : List SpaceObject), buildTree fuel data none = some t →
      ∃ fuel' t', fuel' ≤ fuel ∧ buildTree fuel' data (some x) = some t' := by
  induction h with
  | root =>
    intro fuel t ht
    exact ⟨fuel, t, le_refl _, by rw [← buildTree_none]; exact ht⟩
  | step item y hitem _ hname ih =>
    intro fuel t ht
    obtain ⟨f', t', hf', ht'⟩ := ih fuel t ht
    obtain ⟨n, hn, hall⟩ := buildTree_some data f' _ t' ht'
    obtain ⟨node, _, cs, hcs, _⟩ :=
      forall₂_exists_right hall item (List.mem_filter.2 ⟨hitem, by simp⟩)
    rw [hname] at hcs
    exact ⟨n, cs, by omega, hcs⟩

/-- A record with an undefined name whose parent is reached from the default
root makes the run from the default root contain that same run at a smaller
recursion depth, so it returns for no recursion depth. -/
theorem buildTree_undefined_name (data : List SpaceObject) (item : SpaceObject)
    (hitem : item ∈ data) (hname : item.name = none) (hreach : Reached data item.parent) :
    ∀ fuel, buildTree fuel data none = none := by
  intro fuel
  induction fuel using Nat.strong_induction_on with
  | _ fuel ih =>
    cases ht : buildTree fuel data none with
    | none => rfl
    | some t =>
      obtain ⟨f', t', hf', ht'⟩ := buildTree_reached data hreach fuel t ht
      obtain ⟨n, hn, hall⟩ := buildTree_some data f' _ t' ht'
      obtain ⟨node, _, cs, hcs, _⟩ :=
        forall₂_exists_right hall item (List.mem_filter.2 ⟨hitem, by simp⟩)
      rw [hname, ih n (by omega)] at hcs
      exact absurd hcs (by simp)

/-- C19: when the record list contains a record with an undefined name whose
parent is `"COM"` or the name of a record reached from `"COM"`, `buildTree` from
the default root returns for no recursion depth; in particular it never returns
on the record parsed from the single line `COM`. -/
theorem buildTree_undefined_diverges :
    (∀ (data : List SpaceObject) (item : SpaceObject), item ∈ data → item.name = none →
        Reached data item.parent → ∀ fuel, buildTree fuel data none = none)
      ∧ ∀ fuel, buildTree fuel [convertLineToObject "COM"] none = none :=
  ⟨buildTree_undefined_name,
    buildTree_undefined_name [convertLineToObject "COM"] (convertLineToObject "COM")
      (List.mem_singleton.2 rfl) (by decide) Reached.root⟩

theorem buildTree_undefined_diverges_witness :
    convertLineToObject "COM)A" ∈ [convertLineToObject "COM)A", convertLineToObject "A"]
      ∧ convertLineToObject "A" ∈ [convertLineToObject "COM)A", convertLineToObject "A"]
      ∧ (convertLineToObject "A").name = none
      ∧ Reached [convertLineToObject "COM)A", convertLineToObject "A"]
          (convertLineToObject "A").parent
      ∧ buildTree 9 [convertLineToObject "COM)A", convertLineToObject "A"] none = none :=
  have hmem₁ : convertLineToObject "COM)A"
      ∈ [convertLineToObject "COM)A", convertLineToObject "A"] := List.mem_cons_self _ _
  have hmem₂ : convertLineToObject "A"
      ∈ [convertLineToObject "COM)A", convertLineToObject "A"] :=
    List.mem_cons_of_mem _ (List.mem_singleton.2 rfl)
  have hreach : Reached [convertLineToObject "COM)A", convertLineToObject "A"]
      (convertLineToObject "A").parent :=
    Reached.step (convertLineToObject "COM)A") "A" hmem₁ Reached.root (by decide)
  ⟨hmem₁, hmem₂, by decide, hreach,
    buildTree_undefined_diverges.1 _ _ hmem₂ (by decide) hreach 9⟩

/-! ## The nodes of the tree -/

/-- C17: when `buildTree` returns on a relationship list, an identifier names a
node of the tree exactly when a chain of relationships leads from `"COM"` to it;
when moreover each identifier is the child of at most one relationship and every
parent is `"COM"` or reachable from it, the names of the nodes are the children
of the relationships, each exactly once, every node is a relationship of the
list, and the tree has as many nodes as the list has relationships. -/
theorem buildTree_nodes_iff (S : List Relationship) (fuel : Nat) (t : List SpaceObject)
    (ht : buildTree fuel (S.map Relationship.toObject) none = some t) :
    (∀ x, (∃ z ∈ forest t 1, z.1.name = some x) ↔ Descends S COM x)
      ∧ ((S.map Relationship.child).Nodup → (∀ r ∈ S, Reachable S r.parent) →
          ((forest t 1).map (fun z => z.1.name)).Perm (S.map (fun r => some r.child))
            ∧ (forest t 1).length = S.length
            ∧ ∀ z ∈ forest t 1, ∃ r ∈ S, z.1.parent = r.parent ∧ z.1.name = some r.child) := by
  rw [buildTree_none] at ht
  refine ⟨?_, ?_⟩
  · intro x
    constructor
    · rintro ⟨z, hz, hzn⟩
      obtain ⟨y, hy, hd⟩ := buildTree_descends S fuel COM t 1 ht z hz
      rw [hy] at hzn
      exact Option.some.inj hzn ▸ hd
    · intro hd
      exact buildTree_mem_of_descends S hd fuel t 1 ht
  · intro hnd hreach
    have hroot : COM ∉ S.map Relationship.child := by
      intro hmem
      obtain ⟨r, hr, hc⟩ := List.mem_map.1 hmem
      have hcyc : Descends S COM COM := by
        rcases (Reachable.step r hr (hreach r hr)).descends with h | h
        · have hstep := Descends.child r hr
          rw [hc] at hstep
          rcases (hreach r hr).descends with hp | hp
          · rw [hp] at hstep; exact hstep
          · exact hp.trans hstep
        · rw [hc] at h; exact h
      rw [buildTree_on_cycle S hcyc fuel] at ht
      exact absurd ht (by simp)
    have hwf : WellFormed S := ⟨hnd, hroot, hreach⟩
    have hperm := buildTree_names_perm hwf fuel t 1 ht
    refine ⟨hperm, ?_, ?_⟩
    · have := hperm.length_eq
      simpa using this
    · intro z hz
      obtain ⟨r, hr, hn, hp, _⟩ := buildTree_node_rel S fuel COM t 1 ht z hz
      exact ⟨r, hr, hp, hn⟩

theorem buildTree_nodes_iff_witness :
    buildTree 3 (sampleRelationships.map Relationship.toObject) none = some sampleTree
      ∧ (∀ x, (∃ z ∈ forest sampleTree 1, z.1.name = some x) ↔ Descends sampleRelationships COM x)
      ∧ ((sampleRelationships.map Relationship.child).Nodup →
          (∀ r ∈ sampleRelationships, Reachable sampleRelationships r.parent) →
          ((forest sampleTree 1).map (fun z => z.1.name)).Perm
              (sampleRelationships.map (fun r => some r.child))
            ∧ (forest sampleTree 1).length = sampleRelationships.length
            ∧ ∀ z ∈ forest sampleTree 1, ∃ r ∈ sampleRelationships,
                z.1.parent = r.parent ∧ z.1.name = some r.child) :=
  ⟨rfl, buildTree_nodes_iff sampleRelationships 3 sampleTree rfl⟩

/-! ## Bounds on the total -/

theorem subtree_length_pos (c : SpaceObject) (k : Nat) : 0 < (c.subtree k).length := by
  rw [subtree_eq]
  simp

theorem forest_length_eq_zero (cs : List SpaceObject) (k : Nat) :
    (forest cs k).length = 0 ↔ cs = [] := by
  cases cs with
  | nil => simp [forest]
  | cons c rest =>
    have := subtree_length_pos c k
    simp only [forest, List.length_append, reduceCtorEq, iff_false]
    omega

mutual
theorem bounds_node : ∀ (c : SpaceObject) (k : Nat) (d : Int),
    d * ((c.subtree k).length : Int) ≤ countOrbitsToRoot c d
      ∧ 2 * countOrbitsToRoot c d
          ≤ 2 * d * ((c.subtree k).length : Int)
            + ((c.subtree k).length : Int) * (((c.subtree k).length : Int) - 1)
      ∧ (2 * countOrbitsToRoot c d
          = 2 * d * ((c.subtree k).length : Int)
            + ((c.subtree k).length : Int) * (((c.subtree k).length : Int) - 1)
          ↔ c.isChain = true)
  | SpaceObject.mk _ _ none, k, d => by
    simp [SpaceObject.subtree, countOrbitsToRoot, SpaceObject.isChain]
  | SpaceObject.mk _ _ (some cs), k, d => by
    obtain ⟨hl, hu, he⟩ := bounds_list cs (k + 1) (d + 1)
    simp only [SpaceObject.subtree, countOrbitsToRoot, countOrbitsLoop_eq, List.length_cons,
      SpaceObject.isChain, Nat.cast_add, Nat.cast_one, ← he]
    have hnn : (0 : Int) ≤ ((forest cs (k + 1)).length : Int) := by omega
    generalize ((forest cs (k + 1)).length : Int) = s at hl hu hnn
    generalize (cs.map (fun c => countOrbitsToRoot c (d + 1))).sum = n at hl hu
    refine ⟨by nlinarith, by nlinarith, ?_⟩
    constructor <;> intro h <;> nlinarith
theorem bounds_list : ∀ (cs : List SpaceObject) (k : Nat) (d : Int),
    d * ((forest cs k).length : Int) ≤ (cs.map (fun c => countOrbitsToRoot c d)).sum
      ∧ 2 * (cs.map (fun c => countOrbitsToRoot c d)).sum
          ≤ 2 * d * ((forest cs k).length : Int)
            + ((forest cs k).length : Int) * (((forest cs k).length : Int) - 1)
      ∧ (2 * (cs.map (fun c => countOrbitsToRoot c d)).sum
          = 2 * d * ((forest cs k).length : Int)
            + ((forest cs k).length : Int) * (((forest cs k).length : Int) - 1)
          ↔ isChain cs = true)
  | [], _, _ => by simp [forest, isChain]
  | c :: rest, k, d => by
    obtain ⟨hl₁, hu₁, he₁⟩ := bounds_node c k d
    obtain ⟨hl₂, hu₂, he₂⟩ := bounds_list rest k d
    have hpos : (1 : Int) ≤ ((c.subtree k).length : Int) := by
      have := subtree_length_pos c k
      omega
    have hzero : ((forest rest k).length : Int) = 0 ↔ rest = [] := by
      rw [← forest_length_eq_zero rest k]
      omega
    have hnn : (0 : Int) ≤ ((forest rest k).length : Int) := by omega
    simp only [forest, List.length_append, List.map_cons, List.sum_cons, Nat.cast_add, isChain,
      Bool.and_eq_true, List.isEmpty_iff, ← he₁]
    generalize ((c.subtree k).length : Int) = s₁ at *
    generalize ((forest rest k).length : Int) = s₂ at *
    generalize countOrbitsToRoot c d = a at *
    generalize (rest.map (fun c => countOrbitsToRoot c d)).sum = b at *
    refine ⟨by nlinarith, by nlinarith, ?_⟩
    constructor
    · intro h
      have hs : s₂ = 0 := by nlinarith
      have hb : b = 0 := by
        rw [hs] at hl₂ hu₂
        nlinarith
      refine ⟨hzero.1 hs, ?_⟩
      rw [hs, hb] at h
      linarith
    · rintro ⟨hr, hc⟩
      have hs : s₂ = 0 := hzero.2 hr
      have hb : b = 0 := by
        rw [hs] at hl₂ hu₂
        nlinarith
      rw [hs, hb]
      linarith
end

theorem flat_node (c : SpaceObject) (k : Nat) (d : Int) :
    countOrbitsToRoot c d = d * ((c.subtree k).length : Int) ↔ c.children.getD [] = [] := by
  obtain ⟨hl, _, _⟩ := bounds_list (c.children.getD []) (k + 1) (d + 1)
  have hzero := forest_length_eq_zero (c.children.getD []) (k + 1)
  rw [countOrbitsToRoot_eq, subtree_eq, List.length_cons, Nat.cast_add, Nat.cast_one]
  constructor
  · intro h
    apply hzero.1
    have hnn : (0 : Int) ≤ ((forest (c.children.getD []) (k + 1)).length : Int) := by omega
    have : ((forest (c.children.getD []) (k + 1)).length : Int) = 0 := by nlinarith
    omega
  · intro h
    rw [h]
    simp [forest]

theorem flat_list (cs : List SpaceObject) (k : Nat) (d : Int) :
    (cs.map (fun c => countOrbitsToRoot c d)).sum = d * ((forest cs k).length : Int)
      ↔ isFlat cs = true := by
  induction cs with
  | nil => simp [forest, isFlat]
  | cons c rest ih =>
    obtain ⟨hl₁, _, _⟩ := bounds_node c k d
    obtain ⟨hl₂, _, _⟩ := bounds_list rest k d
    have hc := flat_node c k d
    have hflat : isFlat (c :: rest) = true ↔ c.children.getD [] = [] ∧ isFlat rest = true := by
      simp [isFlat]
    rw [hflat, ← hc, ← ih]
    simp only [forest, List.length_append, List.map_cons, List.sum_cons, Nat.cast_add]
    constructor
    · intro h
      constructor <;> nlinarith
    · rintro ⟨h₁, h₂⟩
      rw [h₁, h₂]
      ring

/-- C18: for a tree with `n` nodes in total, `n ≤ countTotalOrbits tree` and
`countTotalOrbits tree ≤ n * (n + 1) / 2`; the lower bound is attained exactly
when every node is a root-level node without children, the upper bound exactly
when the tree is a single chain; in particular the total is not negative. -/
theorem countTotalOrbits_bounds (t : List SpaceObject) :
    ((forest t 1).length : Int) ≤ countTotalOrbits t
      ∧ countTotalOrbits t
          ≤ ((forest t 1).length : Int) * (((forest t 1).length : Int) + 1) / 2
      ∧ (countTotalOrbits t = ((forest t 1).length : Int) ↔ isFlat t = true)
      ∧ (countTotalOrbits t
            = ((forest t 1).length : Int) * (((forest t 1).length : Int) + 1) / 2
          ↔ isChain t = true)
      ∧ 0 ≤ countTotalOrbits t := by
  obtain ⟨hl, hu, he⟩ := bounds_list t 1 1
  have hf := flat_list t 1 1
  have hnn : (0 : Int) ≤ ((forest t 1).length : Int) := by omega
  have heven : ((forest t 1).length : Int) * (((forest t 1).length : Int) + 1) % 2 = 0 :=
    Int.even_iff.1 (Int.even_mul_succ_self _)
  rw [countTotalOrbits, countTotalLoop_eq, zero_add, ← he, ← hf]
  generalize (t.map (fun c => countOrbitsToRoot c 1)).sum = a at *
  have hq : 2 * 1 * ((forest t 1).length : Int)
      + ((forest t 1).length : Int) * (((forest t 1).length : Int) - 1)
      = ((forest t 1).length : Int) * (((forest t 1).length : Int) + 1) := by ring
  rw [hq] at hu ⊢
  generalize ((forest t 1).length : Int) * (((forest t 1).length : Int) + 1) = q at *
  generalize ((forest t 1).length : Int) = s at *
  refine ⟨by omega, by omega, by constructor <;> intro h <;> omega,
    by constructor <;> intro h <;> omega, by omega⟩

/-! ## Lines with several separators -/

/-- C20: for a line with two or more `)`, `convertLineToObject` returns as
`parent` the text before the first `)` and as `name` the text strictly between
the first and the second `)`; what follows the second `)` is dropped, so `name`
is not the remainder of the line after the first `)`. -/
theorem convertLineToObject_two_seps (line : String) (h : 2 ≤ line.data.count ')') :
    ∃ name rest, (convertLineToObject line).name = some name
      ∧ ')' ∉ (convertLineToObject line).parent.data
      ∧ ')' ∉ name.data
      ∧ line = (convertLineToObject line).parent ++ ")" ++ name ++ ")" ++ rest
      ∧ (convertLineToObject line).parent ++ ")" ++ name ≠ line := by
  have hlen := splitChars_length ')' line.data
  have hjoin := splitChars_join ')' line.data
  have hfst := splitChars_fst_no_sep ')' line.data
  have hsnd := splitChars_snd_no_sep ')' line.data
  cases hs : (splitChars ')' line.data).2 with
  | nil => rw [hs] at hlen; simp at hlen; omega
  | cons w₁ tl =>
    cases tl with
    | nil => rw [hs] at hlen; simp at hlen; omega
    | cons w₂ ws =>
      rw [hs] at hjoin hsnd
      simp only [List.map_cons, List.flatten_cons] at hjoin
      have hw₁ : ')' ∉ w₁ := hsnd w₁ (by simp)
      refine ⟨String.mk w₁, String.mk (w₂ ++ (ws.map (fun w => ')' :: w)).flatten), ?_, ?_, ?_,
        ?_, ?_⟩
      · simp [convertLineToObject, split, SpaceObject.name, hs]
      · simpa [convertLineToObject, split, SpaceObject.parent] using hfst
      · simpa using hw₁
      · apply String.ext
        simp only [convertLineToObject, split, SpaceObject.parent, String.data_append]
        generalize (splitChars ')' line.data).1 = p at hjoin ⊢
        rw [← hjoin]
        simp
      · intro e
        have e' := congrArg (fun s => s.data.count ')') e
        simp only [convertLineToObject, split, SpaceObject.parent, String.data_append,
          List.count_append] at e'
        rw [List.count_eq_zero_of_not_mem hfst, List.count_eq_zero_of_not_mem hw₁] at e'
        have h₁ : (")" : String).data.count ')' = 1 := by decide
        have h₂ : List.count ')' [')'] = 1 := by decide
        simp only [h₁, h₂] at e'
        omega

theorem convertLineToObject_two_seps_witness :
    2 ≤ "A)B)C".data.count ')'
      ∧ convertLineToObject "A)B)C" = SpaceObject.mk "A" (some "B") none
      ∧ ∃ name rest, (convertLineToObject "A)B)C").name = some name
          ∧ ')' ∉ (convertLineToObject "A)B)C").parent.data
          ∧ ')' ∉ name.data
          ∧ "A)B)C" = (convertLineToObject "A)B)C").parent ++ ")" ++ name ++ ")" ++ rest
          ∧ (convertLineToObject "A)B)C").parent ++ ")" ++ name ≠ "A)B)C" :=
  ⟨by decide, rfl, convertLineToObject_two_seps "A)B)C" (by decide)⟩

/-! ## The effect of `buildTree` on its input -/

theorem KeyReached.append {keys : List (String × Option String)} {root x y : String}
    (h₁ : KeyReached keys root x) (h₂ : KeyReached keys x y) : KeyReached keys root y := by
  induction h₂ with
  | root => exact h₁
  | step k hk _ ih => exact KeyReached.step k hk ih

theorem map_key_getElem? {h h' : List Cell} (hk : h'.map Cell.key = h.map Cell.key) (i : Nat) :
    (h'[i]?).map Cell.key = (h[i]?).map Cell.key := by
  rw [← List.getElem?_map, ← List.getElem?_map, hk]

theorem map_key_length {h h' : List Cell} (hk : h'.map Cell.key = h.map Cell.key) :
    h'.length = h.length := by
  simpa using congrArg List.length hk

theorem Frame.refl (root : String) (h : List Cell) : Frame root h h := by
  refine ⟨rfl, ?_⟩
  intro i c c' hc hc'
  rw [hc] at hc'
  exact Or.inl (congrArg Cell.children (Option.some.inj hc').symm)

theorem Frame.comp {root : String} {h h₁ h₂ : List Cell} (a : Frame root h h₁)
    (b : Frame root h₁ h₂) : Frame root h h₂ := by
  refine ⟨b.1.trans a.1, ?_⟩
  intro i c c₂ hc hc₂
  have hlen := map_key_length a.1
  have hk := map_key_getElem? a.1 i
  cases hc₁ : h₁[i]? with
  | none => rw [hc₁, hc] at hk; simp at hk
  | some c₁ =>
    rw [hc₁, hc] at hk
    have hkey : c₁.key = c.key := by simpa using hk
    have hpar : c₁.parent = c.parent := congrArg Prod.fst hkey
    rcases b.2 i c₁ c₂ hc₁ hc₂ with e | ⟨hr, cs, hcs, hne, hv⟩
    · rcases a.2 i c c₁ hc hc₁ with e' | r
      · exact Or.inl (e.trans e')
      · exact Or.inr (by rw [e]; exact r)
    · rw [a.1, hpar] at hr
      rw [hlen] at hv
      exact Or.inr ⟨hr, cs, hcs, hne, hv⟩

theorem Frame.weaken {root x : String} {h h' : List Cell}
    (hx : KeyReached (h.map Cell.key) root x) (a : Frame x h h') : Frame root h h' := by
  refine ⟨a.1, ?_⟩
  intro i c c' hc hc'
  rcases a.2 i c c' hc hc' with e | ⟨hr, r⟩
  · exact Or.inl e
  · exact Or.inr ⟨hx.append hr, r⟩

theorem setChildrenAt_key (h : List Cell) (i : Nat) (cs : List Nat) :
    (setChildrenAt h i cs).map Cell.key = h.map Cell.key := by
  induction h generalizing i with
  | nil => rfl
  | cons c rest ih =>
    cases i with
    | zero => simp [setChildrenAt, Cell.key]
    | succ n => simp [setChildrenAt, ih]

theorem setChildrenAt_getElem? (h : List Cell) (i : Nat) (cs : List Nat) (j : Nat) (c' : Cell)
    (hc' : (setChildrenAt h i cs)[j]? = some c') :
    h[j]? = some c' ∨ (j = i ∧ c'.children = some cs) := by
  induction h generalizing i j with
  | nil => simp [setChildrenAt] at hc'
  | cons c rest ih =>
    cases i with
    | zero =>
      cases j with
      | zero =>
        simp only [setChildrenAt, List.getElem?_cons_zero, Option.some.injEq] at hc'
        exact Or.inr ⟨rfl, by rw [← hc']⟩
      | succ m =>
        simp only [setChildrenAt, List.getElem?_cons_succ] at hc'
        exact Or.inl (by simpa using hc')
    | succ n =>
      cases j with
      | zero =>
        simp only [setChildrenAt, List.getElem?_cons_zero] at hc'
        exact Or.inl (by simpa using hc')
      | succ m =>
        simp only [setChildrenAt, List.getElem?_cons_succ] at hc'
        rcases ih n m hc' with e | ⟨e, r⟩
        · exact Or.inl (by simpa using e)
        · exact Or.inr ⟨by omega, r⟩

theorem attachAt_frame (root : String) (h : List Cell) (i : Nat) (item : Cell) (cs : List Nat)
    (hi : h[i]? = some item) (hr : KeyReached (h.map Cell.key) root item.parent)
    (hv : ∀ j ∈ cs, j < h.length) : Frame root h (attachAt h i cs) := by
  by_cases hlen : cs.length = 0
  · simp only [attachAt, hlen, ne_eq, not_true_eq_false, if_false]
    exact Frame.refl root h
  · simp only [attachAt, hlen, ne_eq, not_false_eq_true, if_true]
    refine ⟨setChildrenAt_key h i cs, ?_⟩
    intro j c c' hc hc'
    rcases setChildrenAt_getElem? h i cs j c' hc' with e | ⟨rfl, e⟩
    · rw [hc] at e
      exact Or.inl (congrArg Cell.children (Option.some.inj e).symm)
    · rw [hi] at hc
      obtain rfl := Option.some.inj hc
      exact Or.inr ⟨hr, cs, e, fun e' => hlen (by rw [e']; rfl), hv⟩

theorem forEachCell_frame
    (recurse : List Cell → Option String → Option (List Nat × List Cell)) (root : String)
    (hrec : ∀ h x tree h', recurse h x = some (tree, h') →
      Frame (x.getD COM) h h' ∧ ∀ i ∈ tree, i < h.length) :
    ∀ (idxs : List Nat) (h : List Cell) (acc tree : List Nat) (h' : List Cell),
      forEachCell recurse root idxs h acc = some (tree, h') → (∀ i ∈ acc, i < h.length) →
      Frame root h h' ∧ ∀ i ∈ tree, i < h.length := by
  intro idxs
  induction idxs with
  | nil =>
    intro h acc tree h' hrun hacc
    simp only [forEachCell, Option.some.injEq, Prod.mk.injEq] at hrun
    obtain ⟨rfl, rfl⟩ := hrun
    exact ⟨Frame.refl root h, hacc⟩
  | cons i rest ih =>
    intro h acc tree h' hrun hacc
    cases hi : h[i]? with
    | none =>
      simp only [forEachCell, hi] at hrun
      exact ih h acc tree h' hrun hacc
    | some item =>
      by_cases hp : item.parent = root
      · cases hr : recurse h item.name with
        | none => simp [forEachCell, hi, hp, hr] at hrun
        | some res =>
          obtain ⟨children, h₁⟩ := res
          simp only [forEachCell, hi, hp, hr, if_true] at hrun
          obtain ⟨hf₁, hv₁⟩ := hrec h item.name children h₁ hr
          have hlen₁ := map_key_length hf₁.1
          have hreach : KeyReached (h.map Cell.key) root (item.name.getD COM) := by
            have hmem : item.key ∈ h.map Cell.key :=
              List.mem_map_of_mem _ (List.getElem?_mem hi)
            have hroot : KeyReached (h.map Cell.key) root item.key.1 := by
              rw [show item.key.1 = root from hp]
              exact KeyReached.root
            exact KeyReached.step item.key hmem hroot
          have hf₁' : Frame root h h₁ := Frame.weaken hreach hf₁
          have hk := map_key_getElem? hf₁.1 i
          cases hi₁ : h₁[i]? with
          | none => rw [hi₁, hi] at hk; simp at hk
          | some item₁ =>
            rw [hi₁, hi] at hk
            have hkey : item₁.key = item.key := by simpa using hk
            have hpar : item₁.parent = root := (congrArg Prod.fst hkey).trans hp
            have hf₂ : Frame root h₁ (attachAt h₁ i children) :=
              attachAt_frame root h₁ i item₁ children hi₁
                (by rw [hpar]; exact KeyReached.root) (by rw [hlen₁]; exact hv₁)
            have hlen₂ := map_key_length hf₂.1
            have hilt : i < h.length := by
              have := (List.getElem?_eq_some_iff.1 hi).1
              exact this
            obtain ⟨hf₃, hv₃⟩ := ih (attachAt h₁ i children) (acc ++ [i]) tree h' hrun (by
              intro j hj
              rw [hlen₂, hlen₁]
              rcases List.mem_append.1 hj with hj | hj
              · exact hacc j hj
              · rw [List.mem_singleton.1 hj]; exact hilt)
            refine ⟨(hf₁'.comp hf₂).comp hf₃, ?_⟩
            intro j hj
            have := hv₃ j hj
            rw [hlen₂, hlen₁] at this
            exact this
      · simp only [forEachCell, hi, hp, if_false] at hrun
        exact ih h acc tree h' hrun hacc

theorem buildTreeHeap_frame :
    ∀ (fuel : Nat) (h : List Cell) (p : Option String) (tree : List Nat) (h' : List Cell),
      buildTreeHeap fuel h p = some (tree, h') →
      Frame (p.getD COM) h h' ∧ ∀ i ∈ tree, i < h.length := by
  intro fuel
  induction fuel with
  | zero => intro h p tree h' hrun; simp [buildTreeHeap] at hrun
  | succ n ih =>
    intro h p tree h' hrun
    rw [buildTreeHeap] at hrun
    exact forEachCell_frame (buildTreeHeap n) (p.getD COM) ih _ h [] tree h' hrun (by simp)

/-- C16: a returning run of `buildTree` leaves the records of `data` in place
with `parent` and `name` unchanged; the nodes of the returned tree are records
of `data`; the `children` attribute of a record is left as it was or set to a
non-empty array of records of `data`; and a record whose parent the run does not
reach from the root is left exactly as it was. -/
theorem buildTreeHeap_effect (heap : List Cell) (fuel : Nat) (p : Option String)
    (tree : List Nat) (heap' : List Cell)
    (hrun : buildTreeHeap fuel heap p = some (tree, heap')) :
    heap'.map Cell.key = heap.map Cell.key
      ∧ (∀ i ∈ tree, i < heap.length)
      ∧ (∀ (i : Nat) (c c' : Cell), heap[i]? = some c → heap'[i]? = some c' →
          c'.children = c.children
            ∨ ∃ cs, c'.children = some cs ∧ cs ≠ [] ∧ ∀ j ∈ cs, j < heap.length)
      ∧ (∀ (i : Nat) (c : Cell), heap[i]? = some c →
          ¬ KeyReached (heap.map Cell.key) (p.getD COM) c.parent → heap'[i]? = some c) := by
  obtain ⟨hf, hv⟩ := buildTreeHeap_frame fuel heap p tree heap' hrun
  refine ⟨hf.1, hv, ?_, ?_⟩
  · intro i c c' hc hc'
    rcases hf.2 i c c' hc hc' with e | ⟨_, r⟩
    · exact Or.inl e
    · exact Or.inr r
  · intro i c hc hnr
    have hk := map_key_getElem? hf.1 i
    cases hc' : heap'[i]? with
    | none => rw [hc', hc] at hk; simp at hk
    | some c' =>
      rw [hc', hc] at hk
      have hkey : c'.key = c.key := by simpa using hk
      rcases hf.2 i c c' hc hc' with e | ⟨hr, _⟩
      · cases c with
        | mk p₁ n₁ ch₁ =>
          cases c' with
          | mk p₂ n₂ ch₂ =>
            simp only [Cell.key, Prod.mk.injEq] at hkey
            simp only at e
            rw [hkey.1, hkey.2, e]
      · exact absurd hr hnr

theorem buildTreeHeap_effect_witness :
    buildTreeHeap 3 sampleHeap none
        = some ([0], [⟨"COM", some "A", some [1]⟩, ⟨"A", some "B", none⟩, ⟨"X", some "Y", none⟩])
      ∧ sampleHeap[2]? = some ⟨"X", some "Y", none⟩
      ∧ ([⟨"COM", some "A", some [1]⟩, ⟨"A", some "B", none⟩, ⟨"X", some "Y", none⟩]
            : List Cell).map Cell.key = sampleHeap.map Cell.key
      ∧ (∀ i ∈ [0], i < sampleHeap.length) :=
  have hrun : buildTreeHeap 3 sampleHeap none
      = some ([0], [⟨"COM", some "A", some [1]⟩, ⟨"A", some "B", none⟩, ⟨"X", some "Y", none⟩]) :=
    rfl
  ⟨hrun, rfl, (buildTreeHeap_effect sampleHeap 3 none _ _ hrun).1,
    (buildTreeHeap_effect sampleHeap 3 none _ _ hrun).2.1⟩

/-! ## The memory model refines to the pure model -/

theorem objAt_congr {h h' : List Cell} (hk : h'.map Cell.key = h.map Cell.key) (i : Nat) :
    objAt h' i = objAt h i := by
  have hi := map_key_getElem? hk i
  unfold objAt
  cases hc : h[i]? with
  | none =>
    rw [hc] at hi
    cases hc' : h'[i]? with
    | none => rfl
    | some c' => rw [hc'] at hi; simp at hi
  | some c =>
    rw [hc] at hi
    cases hc' : h'[i]? with
    | none => rw [hc'] at hi; simp at hi
    | some c' =>
      rw [hc'] at hi
      have hkey : c'.key = c.key := by simpa using hi
      simp only [Cell.key, Prod.mk.injEq] at hkey
      simp [Cell.toObject, hkey.1, hkey.2]

theorem childRefs_congr {h h' : List Cell} (hk : h'.map Cell.key = h.map Cell.key)
    (x : String) : childRefs h' x = childRefs h x := by
  unfold childRefs
  rw [map_key_length hk]
  congr 1
  funext i
  rw [objAt_congr hk i]

theorem objAt_of_getElem? {h : List Cell} {i : Nat} {c : Cell} (hc : h[i]? = some c) :
    objAt h i = c.toObject := by
  simp [objAt, hc]

theorem map_objAt_range (h : List Cell) :
    (List.range h.length).map (objAt h) = h.map Cell.toObject := by
  apply List.ext_getElem?
  intro i
  by_cases hi : i < h.length
  · simp [List.getElem?_map, List.getElem?_range hi, objAt, List.getElem?_eq_getElem hi]
  · have h₁ : (List.range h.length).length ≤ i := by simp; omega
    have h₂ : h.length ≤ i := by omega
    simp [List.getElem?_map, List.getElem?_eq_none h₁, List.getElem?_eq_none h₂]

theorem setChildrenAt_self (h : List Cell) (i : Nat) (cs : List Nat) (c : Cell)
    (hc : h[i]? = some c) :
    (setChildrenAt h i cs)[i]? = some ⟨c.parent, c.name, some cs⟩ := by
  induction h generalizing i with
  | nil => simp at hc
  | cons a rest ih =>
    cases i with
    | zero =>
      simp only [List.getElem?_cons_zero, Option.some.injEq] at hc
      simp [setChildrenAt, hc]
    | succ n =>
      simp only [List.getElem?_cons_succ] at hc
      simpa [setChildrenAt] using ih n hc

theorem Built.of_frame {h h' : List Cell} {r x : String} (hb : Built h x)
    (hf : Frame r h h') : Built h' x := by
  induction hb with
  | intro x hleaf _ ih =>
    refine Built.intro x ?_ ?_
    · intro j c' hc' hp hnone
      have hk := map_key_getElem? hf.1 j
      cases hc : h[j]? with
      | none => rw [hc, hc'] at hk; simp at hk
      | some c =>
        rw [hc, hc'] at hk
        have hkey : c'.key = c.key := by simpa using hk
        simp only [Cell.key, Prod.mk.injEq] at hkey
        rw [childRefs_congr hf.1, hkey.2]
        apply hleaf j c hc (hkey.1 ▸ hp)
        rcases hf.2 j c c' hc hc' with e | ⟨_, cs, hcs, _⟩
        · rw [← e]; exact hnone
        · rw [hnone] at hcs; simp at hcs
    · intro j c' hc' hp
      have hk := map_key_getElem? hf.1 j
      cases hc : h[j]? with
      | none => rw [hc, hc'] at hk; simp at hk
      | some c =>
        rw [hc, hc'] at hk
        have hkey : c'.key = c.key := by simpa using hk
        simp only [Cell.key, Prod.mk.injEq] at hkey
        rw [hkey.2]
        exact ih j c hc (hkey.1 ▸ hp)

theorem cell_of_frame {h h' : List Cell} {r : String} (hf : Frame r h h') {j : Nat} {c' : Cell}
    (hc' : h'[j]? = some c') :
    ∃ c, h[j]? = some c ∧ c'.parent = c.parent ∧ c'.name = c.name
      ∧ (c'.children = c.children ∨ ∃ cs, c'.children = some cs) := by
  have hk := map_key_getElem? hf.1 j
  cases hc : h[j]? with
  | none => rw [hc, hc'] at hk; simp at hk
  | some c =>
    rw [hc, hc'] at hk
    have hkey : c'.key = c.key := by simpa using hk
    simp only [Cell.key, Prod.mk.injEq] at hkey
    refine ⟨c, rfl, hkey.1, hkey.2, ?_⟩
    rcases hf.2 j c c' hc hc' with e | ⟨_, cs, hcs, _⟩
    · exact Or.inl e
    · exact Or.inr ⟨cs, hcs⟩

/-- The condition on a visited record whose parent is the requested one. -/
theorem visited_of_frame {h h' : List Cell} {r root : String} (hf : Frame r h h')
    (done : List Nat)
    (hv : ∀ j ∈ done, ∀ c, h[j]? = some c → c.parent = root →
      (c.children = none → childRefs h (c.name.getD COM) = []) ∧ Built h (c.name.getD COM)) :
    ∀ j ∈ done, ∀ c, h'[j]? = some c → c.parent = root →
      (c.children = none → childRefs h' (c.name.getD COM) = [])
        ∧ Built h' (c.name.getD COM) := by
  intro j hj c' hc' hp
  obtain ⟨c, hc, hpar, hname, hch⟩ := cell_of_frame hf hc'
  obtain ⟨hleaf, hb⟩ := hv j hj c hc (hpar ▸ hp)
  rw [hname, childRefs_congr hf.1]
  refine ⟨?_, hb.of_frame hf⟩
  intro hnone
  apply hleaf
  rcases hch with e | ⟨cs, hcs⟩
  · rw [← e]; exact hnone
  · rw [hnone] at hcs; simp at hcs

theorem attachAt_inv (h : List Cell) (i : Nat) (item : Cell) (cs : List Nat)
    (hi : h[i]? = some item) (hinv : HeapInv h) (hcs : cs = childRefs h (item.name.getD COM)) :
    HeapInv (attachAt h i cs) := by
  by_cases hlen : cs.length = 0
  · simp only [attachAt, hlen, ne_eq, not_true_eq_false, if_false]
    exact hinv
  · simp only [attachAt, hlen, ne_eq, not_false_eq_true, if_true]
    intro j c' cs' hc' hch
    rw [childRefs_congr (setChildrenAt_key h i cs)]
    by_cases hji : j = i
    · subst hji
      rw [setChildrenAt_self h j cs item hi] at hc'
      obtain rfl := Option.some.inj hc'
      simp only [Option.some.injEq] at hch
      subst hch
      exact ⟨fun e => hlen (by rw [e]; rfl), hcs⟩
    · rcases setChildrenAt_getElem? h i cs j c' hc' with e | ⟨e, _⟩
      · exact hinv j c' cs' e hch
      · exact absurd e hji

theorem forEachCell_built
    (recurse : List Cell → Option String → Option (List Nat × List Cell)) (root : String)
    (hframe : ∀ h x tree h', recurse h x = some (tree, h') →
      Frame (x.getD COM) h h' ∧ ∀ i ∈ tree, i < h.length)
    (hrec : ∀ h x tree h', HeapInv h → recurse h x = some (tree, h') →
      tree = childRefs h (x.getD COM) ∧ HeapInv h' ∧ Built h' (x.getD COM)) :
    ∀ (idxs : List Nat) (h : List Cell) (acc tree : List Nat) (h' : List Cell)
      (done : List Nat), HeapInv h → (∀ i ∈ idxs, i < h.length) →
      (∀ j ∈ done, ∀ c, h[j]? = some c → c.parent = root →
        (c.children = none → childRefs h (c.name.getD COM) = [])
          ∧ Built h (c.name.getD COM)) →
      forEachCell recurse root idxs h acc = some (tree, h') →
      tree = acc ++ idxs.filter (fun i => (objAt h i).parent = root) ∧ HeapInv h'
        ∧ ∀ j ∈ done ++ idxs, ∀ c, h'[j]? = some c → c.parent = root →
            (c.children = none → childRefs h' (c.name.getD COM) = [])
              ∧ Built h' (c.name.getD COM) := by
  intro idxs
  induction idxs with
  | nil =>
    intro h acc tree h' done hinv _ hv hrun
    simp only [forEachCell, Option.some.injEq, Prod.mk.injEq] at hrun
    obtain ⟨rfl, rfl⟩ := hrun
    exact ⟨by simp, hinv, by simpa using hv⟩
  | cons i rest ih =>
    intro h acc tree h' done hinv hvalid hv hrun
    have hrest : ∀ j ∈ rest, j < h.length := fun j hj => hvalid j (List.mem_cons_of_mem _ hj)
    cases hi : h[i]? with
    | none =>
      have := hvalid i (List.mem_cons_self _ _)
      rw [List.getElem?_eq_none_iff] at hi
      omega
    | some item =>
      have hobj : (objAt h i).parent = item.parent := by rw [objAt_of_getElem? hi]; rfl
      by_cases hp : item.parent = root
      · cases hr : recurse h item.name with
        | none => simp [forEachCell, hi, hp, hr] at hrun
        | some res =>
          obtain ⟨children, h₁⟩ := res
          simp only [forEachCell, hi, hp, hr, if_true] at hrun
          obtain ⟨hf₁, _⟩ := hframe h item.name children h₁ hr
          obtain ⟨hch, hinv₁, hb₁⟩ := hrec h item.name children h₁ hinv hr
          obtain ⟨item₁, hi₁, hpar₁, hname₁⟩ : ∃ item₁, h₁[i]? = some item₁
              ∧ item₁.parent = item.parent ∧ item₁.name = item.name := by
            have hk := map_key_getElem? hf₁.1 i
            cases hc : h₁[i]? with
            | none => rw [hc, hi] at hk; simp at hk
            | some c =>
              rw [hc, hi] at hk
              have hkey : c.key = item.key := by simpa using hk
              simp only [Cell.key, Prod.mk.injEq] at hkey
              exact ⟨c, rfl, hkey.1, hkey.2⟩
          have hch₁ : children = childRefs h₁ (item₁.name.getD COM) := by
            rw [childRefs_congr hf₁.1, hname₁]; exact hch
          have hf₂ : Frame item₁.parent h₁ (attachAt h₁ i children) :=
            attachAt_frame item₁.parent h₁ i item₁ children hi₁ KeyReached.root (by
              rw [hch₁]
              intro j hj
              have := (List.mem_filter.1 hj).1
              simpa using this)
          have hinv₂ : HeapInv (attachAt h₁ i children) :=
            attachAt_inv h₁ i item₁ children hi₁ hinv₁ hch₁
          have hkeys₂ : (attachAt h₁ i children).map Cell.key = h.map Cell.key :=
            hf₂.1.trans hf₁.1
          have hv₂ : ∀ j ∈ done ++ [i], ∀ c, (attachAt h₁ i children)[j]? = some c →
              c.parent = root →
              (c.children = none → childRefs (attachAt h₁ i children) (c.name.getD COM) = [])
                ∧ Built (attachAt h₁ i children) (c.name.getD COM) := by
            intro j hj c hc hpc
            rcases List.mem_append.1 hj with hj | hj
            · exact visited_of_frame hf₂ done (visited_of_frame hf₁ done hv) j hj c hc hpc
            · obtain rfl := List.mem_singleton.1 hj
              obtain ⟨c₁, hc₁, _, hn, hchild⟩ := cell_of_frame hf₂ hc
              rw [hi₁] at hc₁
              obtain rfl := Option.some.inj hc₁
              rw [hn]
              refine ⟨?_, hb₁.of_frame hf₂ |> fun b => by rw [hname₁]; exact b⟩
              intro hnone
              rw [childRefs_congr hf₂.1, ← hch₁]
              by_cases hlen : children.length = 0
              · exact List.length_eq_zero.1 hlen
              · have hself := setChildrenAt_self h₁ j children item₁ hi₁
                simp only [attachAt, hlen, ne_eq, not_false_eq_true, if_true] at hc
                rw [hself] at hc
                obtain rfl := Option.some.inj hc
                simp at hnone
          obtain ⟨ht, hinv', hv'⟩ := ih (attachAt h₁ i children) (acc ++ [i]) tree h'
            (done ++ [i]) hinv₂ (by
              intro j hj
              rw [map_key_length hkeys₂]
              exact hrest j hj) hv₂ hrun
          refine ⟨?_, hinv', by simpa using hv'⟩
          rw [ht]
          have hfilter : rest.filter (fun k => (objAt (attachAt h₁ i children) k).parent = root)
              = rest.filter (fun k => (objAt h k).parent = root) := by
            congr 1
            funext k
            rw [objAt_congr hkeys₂ k]
          rw [hfilter, List.filter_cons_of_pos (by simpa [hobj] using hp)]
          simp
      · simp only [forEachCell, hi, hp, if_false] at hrun
        have hv₁ : ∀ j ∈ done ++ [i], ∀ c, h[j]? = some c → c.parent = root →
            (c.children = none → childRefs h (c.name.getD COM) = [])
              ∧ Built h (c.name.getD COM) := by
          intro j hj c hc hpc
          rcases List.mem_append.1 hj with hj | hj
          · exact hv j hj c hc hpc
          · rw [List.mem_singleton.1 hj, hi] at hc
            obtain rfl := Option.some.inj hc
            exact absurd hpc hp
        obtain ⟨ht, hinv', hv'⟩ := ih h acc tree h' (done ++ [i]) hinv hrest hv₁ hrun
        refine ⟨?_, hinv', by simpa using hv'⟩
        rw [ht, List.filter_cons_of_neg (by simpa [hobj] using hp)]

/-- A returning run on a memory that satisfies `HeapInv` returns the references
to the records whose parent is the requested one, keeps `HeapInv`, and leaves
the subtree below the requested identifier complete. -/
theorem buildTreeHeap_built :
    ∀ (fuel : Nat) (h : List Cell) (p : Option String) (tree : List Nat) (h' : List Cell),
      HeapInv h → buildTreeHeap fuel h p = some (tree, h') →
      tree = childRefs h (p.getD COM) ∧ HeapInv h' ∧ Built h' (p.getD COM) := by
  intro fuel
  induction fuel with
  | zero => intro h p tree h' _ hrun; simp [buildTreeHeap] at hrun
  | succ n ih =>
    intro h p tree h' hinv hrun
    have hkeys := (buildTreeHeap_frame (n + 1) h p tree h' hrun).1.1
    rw [buildTreeHeap] at hrun
    obtain ⟨ht, hinv', hv⟩ := forEachCell_built (buildTreeHeap n) (p.getD COM)
      (buildTreeHeap_frame n) ih (List.range h.length) h [] tree h' [] hinv
      (fun i hi => List.mem_range.1 hi) (by simp) hrun
    refine ⟨by simpa [childRefs] using ht, hinv', ?_⟩
    have hmem : ∀ j c, h'[j]? = some c → j ∈ [] ++ List.range h.length := by
      intro j c hc
      have := (List.getElem?_eq_some_iff.1 hc).1
      rw [map_key_length hkeys] at this
      simpa using this
    exact Built.intro _ (fun j c hc hp => (hv j (hmem j c hc) c hc hp).1)
      (fun j c hc hp => (hv j (hmem j c hc) c hc hp).2)

theorem readAll_mono (r₁ r₂ : Nat → Option SpaceObject)
    (hr : ∀ i n, r₁ i = some n → r₂ i = some n) :
    ∀ (l : List Nat) (ns : List SpaceObject), readAll r₁ l = some ns → readAll r₂ l = some ns := by
  intro l
  induction l with
  | nil => intro ns h; simpa [readAll] using h
  | cons i rest ih =>
    intro ns h
    cases h₁ : r₁ i with
    | none => simp [readAll, h₁] at h
    | some n =>
      cases h₂ : readAll r₁ rest with
      | none => simp [readAll, h₁, h₂] at h
      | some ms =>
        simp only [readAll, h₁, h₂, Option.some.injEq] at h
        simp [readAll, hr i n h₁, ih ms h₂, h]

theorem readNode_succ (h : List Cell) :
    ∀ (depth i : Nat) (n : SpaceObject), readNode depth h i = some n →
      readNode (depth + 1) h i = some n := by
  intro depth
  induction depth with
  | zero => intro i n hn; simp [readNode] at hn
  | succ d ih =>
    intro i n hn
    rw [readNode] at hn ⊢
    cases hc : h[i]? with
    | none => simp [hc] at hn
    | some c =>
      simp only [hc] at hn ⊢
      cases hch : c.children with
      | none => simpa [hch] using hn
      | some cs =>
        simp only [hch] at hn ⊢
        cases hr : readAll (readNode d h) cs with
        | none => simp [hr] at hn
        | some ts =>
          rw [readAll_mono _ _ (ih) cs ts hr]
          simpa [hr] using hn

theorem readNode_le (h : List Cell) (d d' i : Nat) (n : SpaceObject)
    (hn : readNode d h i = some n) (hle : d ≤ d') : readNode d' h i = some n := by
  obtain ⟨k, rfl⟩ := Nat.exists_eq_add_of_le hle
  induction k with
  | zero => simpa using hn
  | succ k ih => exact readNode_succ h _ i n (ih (by omega))

theorem readAll_length (r : Nat → Option SpaceObject) :
    ∀ (l : List Nat) (ns : List SpaceObject), readAll r l = some ns → ns.length = l.length := by
  intro l
  induction l with
  | nil => intro ns h; simp only [readAll, Option.some.injEq] at h; simp [← h]
  | cons i rest ih =>
    intro ns h
    cases h₁ : r i with
    | none => simp [readAll, h₁] at h
    | some n =>
      cases h₂ : readAll r rest with
      | none => simp [readAll, h₁, h₂] at h
      | some ms =>
        simp only [readAll, h₁, h₂, Option.some.injEq] at h
        simp [← h, ih ms h₂]

/-- A bound that serves every index below `n`. -/
theorem exists_uniform_fuel (P : Nat → Nat → Prop)
    (hmono : ∀ j f f', f ≤ f' → P j f → P j f') :
    ∀ n, (∀ j, j < n → ∃ f, P j f) → ∃ F, ∀ j, j < n → P j F := by
  intro n
  induction n with
  | zero => exact fun _ => ⟨0, fun j hj => absurd hj (by omega)⟩
  | succ n ih =>
    intro hex
    obtain ⟨F, hF⟩ := ih (fun j hj => hex j (by omega))
    obtain ⟨f, hf⟩ := hex n (by omega)
    refine ⟨max F f, ?_⟩
    intro j hj
    by_cases hjn : j < n
    · exact hmono j F _ (le_max_left _ _) (hF j hjn)
    · obtain rfl : j = n := by omega
      exact hmono j f _ (le_max_right _ _) hf

theorem attachChildren_toObject (c : Cell) (t : List SpaceObject) :
    attachChildren c.toObject t
      = if t.length = 0 then SpaceObject.mk c.parent c.name none
        else SpaceObject.mk c.parent c.name (some t) := by
  by_cases ht : t.length = 0 <;>
    simp [attachChildren, Cell.toObject, SpaceObject.setChildren, ht]

/-- The pure loop over the records behind a list of references, and the tree
values read from the memory for those of them whose parent is the requested
one, agree when they do so one level down. -/
theorem forEachItem_read (h : List Cell) (hinv : HeapInv h) (x : String) (F : Nat) :
    ∀ (idxs : List Nat) (acc : List SpaceObject), (∀ j ∈ idxs, j < h.length) →
      (∀ j ∈ idxs, ∀ c, h[j]? = some c → c.parent = x →
        (c.children = none → childRefs h (c.name.getD COM) = [])
          ∧ ∃ t, buildTree F (h.map Cell.toObject) c.name = some t
              ∧ readAll (readNode F h) (childRefs h (c.name.getD COM)) = some t) →
      ∃ ts, forEachItem (buildTree F (h.map Cell.toObject)) x (idxs.map (objAt h)) acc
            = some (acc ++ ts)
          ∧ readAll (readNode (F + 1) h) (idxs.filter (fun i => (objAt h i).parent = x))
            = some ts := by
  intro idxs
  induction idxs with
  | nil => intro acc _ _; exact ⟨[], by simp [forEachItem], by simp [readAll]⟩
  | cons j rest ih =>
    intro acc hvalid hP
    have hrest : ∀ i ∈ rest, i < h.length := fun i hi => hvalid i (List.mem_cons_of_mem _ hi)
    have hPrest := fun i hi => hP i (List.mem_cons_of_mem _ hi)
    obtain ⟨c, hc⟩ : ∃ c, h[j]? = some c := by
      have := hvalid j (List.mem_cons_self _ _)
      exact ⟨h[j], List.getElem?_eq_getElem this⟩
    have hobj : objAt h j = c.toObject := objAt_of_getElem? hc
    by_cases hp : c.parent = x
    · obtain ⟨hleaf, t, hbt, hread⟩ := hP j (List.mem_cons_self _ _) c hc hp
      obtain ⟨ts, hrun, hts⟩ := ih (acc ++ [attachChildren c.toObject t]) hrest hPrest
      refine ⟨attachChildren c.toObject t :: ts, ?_, ?_⟩
      · have hp' : c.toObject.parent = x := hp
        have hn' : c.toObject.name = c.name := rfl
        simp only [List.map_cons, hobj, forEachItem, hp', if_true, hn', hbt]
        rw [hrun]
        simp
      · have hfilter : (objAt h j).parent = x := by rw [hobj]; exact hp
        rw [List.filter_cons_of_pos (by simpa using hfilter)]
        have hnode : readNode (F + 1) h j = some (attachChildren c.toObject t) := by
          rw [attachChildren_toObject]
          simp only [readNode, hc]
          cases hch : c.children with
          | none =>
            have := hleaf hch
            rw [this] at hread
            simp only [readAll, Option.some.injEq] at hread
            simp [← hread]
          | some cs =>
            obtain ⟨hne, hcs⟩ := hinv j c cs hc hch
            rw [← hcs] at hread
            have hlen := readAll_length _ cs t hread
            have hpos : t.length ≠ 0 := by
              rw [hlen]
              exact fun e => hne (List.length_eq_zero.1 e)
            simp [hread, hpos]
        simp only [readAll, hnode, hts]
    · obtain ⟨ts, hrun, hts⟩ := ih acc hrest hPrest
      refine ⟨ts, ?_, ?_⟩
      · have hp' : ¬ c.toObject.parent = x := hp
        simp only [List.map_cons, hobj, forEachItem, hp', if_false]
        exact hrun
      · have hfilter : ¬ (objAt h j).parent = x := by rw [hobj]; exact hp
        rw [List.filter_cons_of_neg (by simpa using hfilter)]
        exact hts

/-- When the subtree below an identifier is complete in the memory, the pure
`buildTree` returns for that identifier, and its result is the tree read from
the memory. -/
theorem built_read (h : List Cell) (hinv : HeapInv h) {x : String} (hb : Built h x) :
    ∃ F t, buildTree F (h.map Cell.toObject) (some x) = some t
      ∧ readAll (readNode F h) (childRefs h x) = some t := by
  induction hb with
  | intro x hleaf _ ih =>
    have hex : ∀ j, j < h.length → ∃ f, ∀ c, h[j]? = some c → c.parent = x →
        ∃ t, buildTree f (h.map Cell.toObject) c.name = some t
          ∧ readAll (readNode f h) (childRefs h (c.name.getD COM)) = some t := by
      intro j hj
      by_cases hp : h[j].parent = x
      · obtain ⟨f, t, hbt, hread⟩ := ih j h[j] (List.getElem?_eq_getElem hj) hp
        refine ⟨f, ?_⟩
        intro c hc _
        rw [List.getElem?_eq_getElem hj] at hc
        obtain rfl := Option.some.inj hc
        exact ⟨t, by rw [buildTree_getD]; exact hbt, hread⟩
      · refine ⟨0, ?_⟩
        intro c hc hpc
        rw [List.getElem?_eq_getElem hj] at hc
        obtain rfl := Option.some.inj hc
        exact absurd hpc hp
    obtain ⟨F, hF⟩ := exists_uniform_fuel _ (by
      intro j f f' hle hP c hc hp
      obtain ⟨t, hbt, hread⟩ := hP c hc hp
      exact ⟨t, buildTree_le _ _ _ _ _ hbt hle,
        readAll_mono _ _ (fun i n hn => readNode_le h f f' i n hn hle) _ _ hread⟩) h.length hex
    obtain ⟨ts, hrun, hts⟩ := forEachItem_read h hinv x F (List.range h.length) []
      (fun j hj => List.mem_range.1 hj)
      (fun j hj c hc hp => ⟨hleaf j c hc hp, hF j (List.mem_range.1 hj) c hc hp⟩)
    refine ⟨F + 1, ts, ?_, hts⟩
    rw [map_objAt_range] at hrun
    rw [buildTree]
    simpa using hrun

theorem map_toObject_congr {h h' : List Cell} (hk : h'.map Cell.key = h.map Cell.key) :
    h'.map Cell.toObject = h.map Cell.toObject := by
  have e : ∀ l : List Cell,
      l.map Cell.toObject = (l.map Cell.key).map (fun k => SpaceObject.mk k.1 k.2 none) := by
    intro l
    rw [List.map_map]
    rfl
  rw [e h', e h, hk]

/-- Every record whose parent is the requested one, among those a returning
loop visits, had its recursive call return. -/
theorem forEachCell_calls
    (recurse : List Cell → Option String → Option (List Nat × List Cell)) (root : String)
    (hkeys : ∀ h x tree h', recurse h x = some (tree, h') → h'.map Cell.key = h.map Cell.key) :
    ∀ (idxs : List Nat) (h : List Cell) (acc tree : List Nat) (h' : List Cell),
      forEachCell recurse root idxs h acc = some (tree, h') →
      ∀ i ∈ idxs, ∀ c, h[i]? = some c → c.parent = root →
        ∃ h₁ tree₁ h₁', h₁.map Cell.key = h.map Cell.key
          ∧ recurse h₁ c.name = some (tree₁, h₁') := by
  intro idxs
  induction idxs with
  | nil => intro h acc tree h' _ i hi; simp at hi
  | cons j rest ih =>
    intro h acc tree h' hrun i hi c hc hp
    have key : ∀ (h₂ : List Cell) (acc₂ : List Nat), h₂.map Cell.key = h.map Cell.key →
        forEachCell recurse root rest h₂ acc₂ = some (tree, h') → i ∈ rest →
        ∃ h₁ tree₁ h₁', h₁.map Cell.key = h.map Cell.key
          ∧ recurse h₁ c.name = some (tree₁, h₁') := by
      intro h₂ acc₂ hk₂ hrun₂ hir
      have hk := map_key_getElem? hk₂ i
      cases hc₂ : h₂[i]? with
      | none => rw [hc₂, hc] at hk; simp at hk
      | some c₂ =>
        rw [hc₂, hc] at hk
        have hkey : c₂.key = c.key := by simpa using hk
        simp only [Cell.key, Prod.mk.injEq] at hkey
        obtain ⟨h₁, tree₁, h₁', hk₁, hr₁⟩ :=
          ih h₂ acc₂ tree h' hrun₂ i hir c₂ hc₂ (hkey.1.trans hp)
        exact ⟨h₁, tree₁, h₁', hk₁.trans hk₂, hkey.2 ▸ hr₁⟩
    cases hj : h[j]? with
    | none =>
      simp only [forEachCell, hj] at hrun
      rcases List.mem_cons.1 hi with rfl | hir
      · rw [hj] at hc; simp at hc
      · exact key h acc rfl hrun hir
    | some item =>
      by_cases hpj : item.parent = root
      · cases hr : recurse h item.name with
        | none => simp [forEachCell, hj, hpj, hr] at hrun
        | some res =>
          obtain ⟨children, h₁⟩ := res
          simp only [forEachCell, hj, hpj, hr, if_true] at hrun
          rcases List.mem_cons.1 hi with rfl | hir
          · rw [hj] at hc
            obtain rfl := Option.some.inj hc
            exact ⟨h, children, h₁, rfl, hr⟩
          · refine key (attachAt h₁ j children) _ ?_ hrun hir
            have hk₁ := hkeys h item.name children h₁ hr
            by_cases hlen : children.length = 0
            · simpa [attachAt, hlen] using hk₁
            · simp only [attachAt, hlen, ne_eq, not_false_eq_true, if_true]
              rw [setChildrenAt_key]
              exact hk₁
      · simp only [forEachCell, hj, hpj, if_false] at hrun
        rcases List.mem_cons.1 hi with rfl | hir
        · rw [hj] at hc
          obtain rfl := Option.some.inj hc
          exact absurd hp hpj
        · exact key h acc rfl hrun hir

theorem forEachCell_terminates
    (recurse : List Cell → Option String → Option (List Nat × List Cell)) (root : String)
    (K : List (String × Option String))
    (hkeys : ∀ h x tree h', recurse h x = some (tree, h') → h'.map Cell.key = h.map Cell.key)
    (hterm : ∀ h₁, h₁.map Cell.key = K → ∀ c ∈ h₁, c.parent = root →
      ∃ res, recurse h₁ c.name = some res) :
    ∀ (idxs : List Nat) (h : List Cell) (acc : List Nat), h.map Cell.key = K →
      ∃ res, forEachCell recurse root idxs h acc = some res := by
  intro idxs
  induction idxs with
  | nil => intro h acc _; exact ⟨(acc, h), rfl⟩
  | cons j rest ih =>
    intro h acc hk
    cases hj : h[j]? with
    | none =>
      simp only [forEachCell, hj]
      exact ih h acc hk
    | some item =>
      by_cases hpj : item.parent = root
      · obtain ⟨⟨children, h₁⟩, hr⟩ := hterm h hk item (List.getElem?_mem hj) hpj
        simp only [forEachCell, hj, hpj, hr, if_true]
        apply ih
        have hk₁ := (hkeys h item.name children h₁ hr).trans hk
        by_cases hlen : children.length = 0
        · simpa [attachAt, hlen] using hk₁
        · simp only [attachAt, hlen, ne_eq, not_false_eq_true, if_true]
          rw [setChildrenAt_key]
          exact hk₁
      · simp only [forEachCell, hj, hpj, if_false]
        exact ih h acc hk

/-- A run in memory that returns has the pure run return at the same recursion
depth. -/
theorem buildTree_of_heap :
    ∀ (fuel : Nat) (h : List Cell) (p : Option String) (tree : List Nat) (h' : List Cell),
      buildTreeHeap fuel h p = some (tree, h') →
      ∃ t, buildTree fuel (h.map Cell.toObject) p = some t := by
  intro fuel
  induction fuel with
  | zero => intro h p tree h' hrun; simp [buildTreeHeap] at hrun
  | succ n ih =>
    intro h p tree h' hrun
    rw [buildTreeHeap] at hrun
    rw [buildTree]
    apply forEachItem_terminates
    intro item hitem hp
    obtain ⟨c, hc, rfl⟩ := List.mem_map.1 hitem
    obtain ⟨i, hi⟩ := List.mem_iff_getElem?.1 hc
    have hlt : i < h.length := (List.getElem?_eq_some_iff.1 hi).1
    obtain ⟨h₁, tree₁, h₁', hk₁, hr₁⟩ := forEachCell_calls (buildTreeHeap n) (p.getD COM)
      (fun h x tree h' hr => (buildTreeHeap_frame n h x tree h' hr).1.1)
      (List.range h.length) h [] tree h' hrun i (List.mem_range.2 hlt) c hi hp
    obtain ⟨t, ht⟩ := ih h₁ c.name tree₁ h₁' hr₁
    rw [map_toObject_congr hk₁] at ht
    exact ⟨t, ht⟩

/-- When the pure run returns, so does the run in memory at the same recursion
depth. -/
theorem heap_of_buildTree :
    ∀ (fuel : Nat) (h : List Cell) (p : Option String) (t : List SpaceObject),
      buildTree fuel (h.map Cell.toObject) p = some t →
      ∃ res, buildTreeHeap fuel h p = some res := by
  intro fuel
  induction fuel with
  | zero => intro h p t hrun; simp [buildTree] at hrun
  | succ n ih =>
    intro h p t hrun
    obtain ⟨m, hm, hall⟩ := buildTree_some _ _ p t hrun
    obtain rfl : n = m := by omega
    rw [buildTreeHeap]
    apply forEachCell_terminates (buildTreeHeap n) (p.getD COM) (h.map Cell.key)
      (fun h x tree h' hr => (buildTreeHeap_frame n h x tree h' hr).1.1) ?_ _ h [] rfl
    intro h₁ hk₁ c hc hp
    have hmem : c.toObject ∈ (h.map Cell.toObject).filter
        (fun item => item.parent = p.getD COM) := by
      rw [← map_toObject_congr hk₁]
      exact List.mem_filter.2 ⟨List.mem_map_of_mem _ hc, by simpa [Cell.toObject] using hp⟩
    obtain ⟨node, _, cs, hcs, _⟩ := forall₂_exists_right hall c.toObject hmem
    rw [← map_toObject_congr hk₁] at hcs
    exact ih h₁ c.name cs hcs

/-- The embedding of `buildTree` with the records in memory and the pure
embedding agree: started on records without a `children` attribute, one returns
exactly when the other does, at the same recursion depth, and the tree read
from the memory after the run, following the attached `children` arrays from
the returned references, is the tree the pure embedding returns. -/
theorem buildTreeHeap_refines (h : List Cell) (hfresh : ∀ c ∈ h, c.children = none)
    (fuel : Nat) (p : Option String) :
    ((∃ res, buildTreeHeap fuel h p = some res)
        ↔ ∃ t, buildTree fuel (h.map Cell.toObject) p = some t)
      ∧ ∀ tree h', buildTreeHeap fuel h p = some (tree, h') →
          ∃ t, buildTree fuel (h.map Cell.toObject) p = some t
            ∧ ∃ depth, readAll (readNode depth h') tree = some t := by
  refine ⟨⟨?_, ?_⟩, ?_⟩
  · rintro ⟨⟨tree, h'⟩, hrun⟩
    exact buildTree_of_heap fuel h p tree h' hrun
  · rintro ⟨t, ht⟩
    exact heap_of_buildTree fuel h p t ht
  · intro tree h' hrun
    have hinv : HeapInv h := by
      intro i c cs hc hch
      rw [hfresh c (List.getElem?_mem hc)] at hch
      simp at hch
    obtain ⟨htree, hinv', hb⟩ := buildTreeHeap_built fuel h p tree h' hinv hrun
    have hkeys := (buildTreeHeap_frame fuel h p tree h' hrun).1.1
    obtain ⟨t₀, ht₀⟩ := buildTree_of_heap fuel h p tree h' hrun
    obtain ⟨F, t, ht, hread⟩ := built_read h' hinv' hb
    rw [map_toObject_congr hkeys, ← buildTree_getD] at ht
    have := buildTree_unique _ _ _ _ _ _ ht₀ ht
    subst this
    refine ⟨t₀, ht₀, F, ?_⟩
    rw [htree, ← childRefs_congr hkeys]
    exact hread

theorem buildTreeHeap_refines_sample :
    ∃ t, buildTree 3 (sampleHeap.map Cell.toObject) none = some t
      ∧ ∃ depth, readAll (readNode depth
          [⟨"COM", some "A", some [1]⟩, ⟨"A", some "B", none⟩, ⟨"X", some "Y", none⟩]) [0]
            = some t :=
  (buildTreeHeap_refines sampleHeap (by simp [sampleHeap]) 3 none).2 _ _ rfl

/-! ## `countOrbitsToRoot` with JavaScript's number addition -/

theorem significandShift_small (n : Nat) (h : n < 2 ^ 53) (steps : Nat) :
    significandShift n (steps + 1) 0 = 0 := by
  rw [significandShift, if_pos]
  rw [pow_zero, Nat.div_one]
  exact h

theorem roundNat_small (n : Nat) (h : n ≤ 2 ^ 53) : roundNat n = n := by
  rcases Nat.lt_or_ge n (2 ^ 53) with hlt | hge
  · have hs : significandShift n 1024 0 = 0 := significandShift_small n hlt 1023
    rw [roundNat, hs, pow_zero, Nat.mod_one, Nat.div_one, Nat.mul_one]
    simp
  · obtain rfl : n = 2 ^ 53 := le_antisymm h hge
    decide

theorem doubleBound_gt : 2 ^ 53 < doubleBound := by
  norm_num [doubleBound]

/-- An integer of magnitude at most `2 ^ 53` is a double. -/
theorem roundInt_safe (v : Int) (h : |v| ≤ 2 ^ 53) : roundInt v = JSNumber.fin v := by
  have hn : v.natAbs ≤ 2 ^ 53 := by
    have : (v.natAbs : Int) ≤ 2 ^ 53 := by rw [Int.natCast_natAbs]; exact h
    exact_mod_cast this
  have hlt : v.natAbs < doubleBound := lt_of_le_of_lt hn doubleBound_gt
  rw [roundInt, roundNat_small _ hn, if_pos hlt]
  by_cases hv : v < 0
  · rw [if_pos hv]
    congr 1
    omega
  · rw [if_neg hv]
    congr 1
    omega

/-- A sum of magnitude at most `2 ^ 53` is computed exactly. -/
theorem add_safe (a b : Int) (h : |a + b| ≤ 2 ^ 53) :
    (JSNumber.fin a).add (JSNumber.fin b) = JSNumber.fin (a + b) := by
  rw [JSNumber.add, roundInt_safe _ h]

theorem abs_sum_map_le {α : Type} (l : List α) (f : α → Int) :
    |(l.map f).sum| ≤ (l.map (fun x => |f x|)).sum := by
  induction l with
  | nil => simp
  | cons a rest ih =>
    simp only [List.map_cons, List.sum_cons]
    exact (abs_add _ _).trans (add_le_add_left ih _)

theorem sum_abs_nonneg {α : Type} (l : List α) (f : α → Int) :
    0 ≤ (l.map (fun x => |f x|)).sum := by
  induction l with
  | nil => simp
  | cons a rest ih =>
    simp only [List.map_cons, List.sum_cons]
    exact add_nonneg (abs_nonneg _) ih

theorem abs_countOrbitsToRoot_le (c : SpaceObject) (k : Nat) (d : Int) :
    |countOrbitsToRoot c (d + k)| ≤ ((c.subtree k).map (fun x => |d + (x.2 : Int)|)).sum := by
  rw [countOrbitsToRoot_subtree]
  exact abs_sum_map_le _ _

mutual
theorem countOrbitsToRootNum_exact : ∀ (c : SpaceObject) (k : Nat) (d : Int),
    ((c.subtree k).map (fun x => |d + (x.2 : Int)|)).sum ≤ 2 ^ 53 →
    countOrbitsToRootNum c (JSNumber.fin (d + k)) = JSNumber.fin (countOrbitsToRoot c (d + k))
  | SpaceObject.mk _ _ none, k, d, _ => by simp [countOrbitsToRootNum, countOrbitsToRoot]
  | SpaceObject.mk _ _ (some cs), k, d, h => by
    simp only [countOrbitsToRootNum, countOrbitsToRoot]
    apply countOrbitsLoopNum_exact cs k d (d + k)
    simpa [SpaceObject.subtree] using h
theorem countOrbitsLoopNum_exact : ∀ (cs : List SpaceObject) (k : Nat) (d total : Int),
    |total| + ((forest cs (k + 1)).map (fun x => |d + (x.2 : Int)|)).sum ≤ 2 ^ 53 →
    countOrbitsLoopNum cs (JSNumber.fin (d + k)) (JSNumber.fin total)
      = JSNumber.fin (countOrbitsLoop cs (d + k) total)
  | [], _, _, _, _ => by simp [countOrbitsLoopNum, countOrbitsLoop]
  | c :: rest, k, d, total, h => by
    simp only [forest, List.map_append, List.sum_append] at h
    have hA := sum_abs_nonneg (c.subtree (k + 1)) (fun x => d + (x.2 : Int))
    have hB := sum_abs_nonneg (forest rest (k + 1)) (fun x => d + (x.2 : Int))
    have hT := abs_nonneg total
    have hc := abs_countOrbitsToRoot_le c (k + 1) d
    have hfirst : |d + ((k + 1 : Nat) : Int)|
        ≤ ((c.subtree (k + 1)).map (fun x => |d + (x.2 : Int)|)).sum := by
      rw [subtree_eq, List.map_cons, List.sum_cons]
      have := sum_abs_nonneg (forest (c.children.getD []) (k + 1 + 1)) (fun x => d + (x.2 : Int))
      simp only at this ⊢
      linarith
    have hcast : d + (k : Int) + 1 = d + ((k + 1 : Nat) : Int) := by push_cast; ring
    have hdepth : (JSNumber.fin (d + k)).add (JSNumber.fin 1)
        = JSNumber.fin (d + ((k + 1 : Nat) : Int)) := by
      rw [add_safe _ _ (by rw [hcast]; linarith), hcast]
    have hchild := countOrbitsToRootNum_exact c (k + 1) d (by linarith)
    have htotal : |total + countOrbitsToRoot c (d + ((k + 1 : Nat) : Int))| ≤ 2 ^ 53 := by
      have := abs_add total (countOrbitsToRoot c (d + ((k + 1 : Nat) : Int)))
      linarith
    have hrest := countOrbitsLoopNum_exact rest k d
      (total + countOrbitsToRoot c (d + ((k + 1 : Nat) : Int))) (by
        have := abs_add total (countOrbitsToRoot c (d + ((k + 1 : Nat) : Int)))
        linarith)
    simp only [countOrbitsLoopNum, countOrbitsLoop, hdepth, hchild, add_safe _ _ htotal, hrest,
      hcast]
end

theorem sum_abs_subtree_le_forest (d : Int) (cs : List SpaceObject) (k : Nat)
    (c : SpaceObject) (hc : c ∈ cs) :
    ((c.subtree k).map (fun x => |d + (x.2 : Int)|)).sum
      ≤ ((forest cs k).map (fun x => |d + (x.2 : Int)|)).sum := by
  induction cs with
  | nil => simp at hc
  | cons a rest ih =>
    simp only [forest, List.map_append, List.sum_append]
    have hA := sum_abs_nonneg (a.subtree k) (fun x => d + (x.2 : Int))
    have hB := sum_abs_nonneg (forest rest k) (fun x => d + (x.2 : Int))
    rcases List.mem_cons.1 hc with rfl | hc
    · linarith
    · have := ih hc
      linarith

/-- C3, as stated, fails: at depth `2 ^ 52` a node with one child returns
`2 ^ 53`, whereas the sum of `depth` plus the number of edges over the two nodes
of the subtree is `2 ^ 53 + 1`, which is not a JavaScript number. -/
theorem countOrbitsToRoot_inexact :
    countOrbitsToRootNum parentOfLeaf (JSNumber.fin (2 ^ 52)) = JSNumber.fin (2 ^ 53)
      ∧ ((parentOfLeaf.subtree 0).map (fun x => (2 ^ 52 : Int) + (x.2 : Int))).sum = 2 ^ 53 + 1
      ∧ countOrbitsToRootNum parentOfLeaf (JSNumber.fin (2 ^ 52))
          ≠ JSNumber.fin
              (((parentOfLeaf.subtree 0).map (fun x => (2 ^ 52 : Int) + (x.2 : Int))).sum) := by
  refine ⟨by decide, by decide, by decide⟩

/-- C3, amended: when the magnitudes of `depth` plus the number of edges from
the node down to `n`, summed over the nodes `n` of the subtree, do not exceed
`2 ^ 53`, `countOrbitsToRoot(node, depth)` is the sum over the subtree of `depth`
plus the number of edges down to the node, and it is `depth` plus the sum of
`countOrbitsToRoot(child, depth + 1)` over the children, each of which is
computed exactly; a node without a `children` attribute gives exactly `depth`,
for every number `depth`. -/
theorem countOrbitsToRootNum_spec (node : SpaceObject) :
    (∀ depth : Int,
        ((node.subtree 0).map (fun x => |depth + (x.2 : Int)|)).sum ≤ 2 ^ 53 →
        countOrbitsToRootNum node (JSNumber.fin depth)
            = JSNumber.fin (((node.subtree 0).map (fun x => depth + (x.2 : Int))).sum)
          ∧ countOrbitsToRootNum node (JSNumber.fin depth)
              = JSNumber.fin (depth
                  + ((node.children.getD []).map
                      (fun c => countOrbitsToRoot c (depth + 1))).sum)
          ∧ ∀ c ∈ node.children.getD [],
              countOrbitsToRootNum c (JSNumber.fin (depth + 1))
                = JSNumber.fin (countOrbitsToRoot c (depth + 1)))
      ∧ ∀ depth : JSNumber, node.children = none → countOrbitsToRootNum node depth = depth := by
  constructor
  · intro depth hsafe
    have hexact := countOrbitsToRootNum_exact node 0 depth hsafe
    simp only [Nat.cast_zero, add_zero] at hexact
    refine ⟨?_, ?_, ?_⟩
    · rw [hexact, (countOrbitsToRoot_spec node depth).1]
    · rw [hexact, (countOrbitsToRoot_spec node depth).2.1]
    · intro c hc
      rw [subtree_eq, List.map_cons, List.sum_cons] at hsafe
      have hsub := sum_abs_subtree_le_forest depth (node.children.getD []) 1 c hc
      have h0 := abs_nonneg (depth + (((node, 0) : SpaceObject × Nat).2 : Int))
      have := countOrbitsToRootNum_exact c 1 depth (by
        simp only [zero_add] at hsafe
        linarith)
      simpa using this
  · intro depth hnone
    cases node with
    | mk p n c =>
      simp only [SpaceObject.children] at hnone
      subst hnone
      rfl

theorem countOrbitsToRootNum_spec_witness :
    ((parentOfLeaf.subtree 0).map (fun x => |(1 : Int) + (x.2 : Int)|)).sum ≤ 2 ^ 53
      ∧ countOrbitsToRootNum parentOfLeaf (JSNumber.fin 1) = JSNumber.fin 3
      ∧ countOrbitsToRootNum parentOfLeaf (JSNumber.fin 1)
          = JSNumber.fin (((parentOfLeaf.subtree 0).map (fun x => (1 : Int) + (x.2 : Int))).sum) :=
  have hsafe : ((parentOfLeaf.subtree 0).map (fun x => |(1 : Int) + (x.2 : Int)|)).sum
      ≤ 2 ^ 53 := by
    norm_num [parentOfLeaf, SpaceObject.subtree, forest]
  ⟨hsafe, by decide, ((countOrbitsToRootNum_spec parentOfLeaf).1 1 hsafe).1⟩

end OrbitMap
